import Mathlib

/-!
Verification of the go-sqlparams SQL placeholder scanner.

Shallow embedding conventions: Go strings are modelled as `List Nat` of
byte values (UTF-8 bytes), Go `int` offsets as `Nat` (all offsets in the
source are non-negative), Go maps as association lists, and Go functions
that can be `nil` as `Option`.  Every definition is translated from the
repository source (`parse_state.go`, the scanner file containing
`ParseSQL`/`isValidName`, `query_token.go`, `identifiers.go`,
`errors.go`); byte literals carry the character they stand for in a
comment.
-/

/-- Byte access `s[i]` on a Go string modelled as a byte list; out-of-range
access yields 0 (call sites are guarded exactly as in the source, where an
out-of-range read would panic; the 0 default also models `peek`'s zero-byte
result). -/
def byteAt : List Nat → Nat → Nat
  | [], _ => 0
  | b :: _, 0 => b
  | _ :: rest, n + 1 => byteAt rest n

/-- Go slice expression `s[a:b]`. -/
def goSlice (s : List Nat) (a b : Nat) : List Nat :=
  (s.drop a).take (b - a)

/-- Go `unicode.IsLetter` on a rune code point.  Exact for code points below
0x100 (the Latin-1 tables): ASCII letters plus `ª µ º À-Ö Ø-ö ø-ÿ`.  Every
call site in this development receives a code point below 0x100 (the scanner
call sites convert a single byte to a rune, and the name validator only ever
receives ASCII bytes from the scanner); code points of 0x100 and above are
modelled as letters. -/
def goIsLetter (r : Nat) : Bool :=
  if r < 256 then
    (65 ≤ r && r ≤ 90) ||      -- 'A'..'Z'
    (97 ≤ r && r ≤ 122) ||     -- 'a'..'z'
    r = 170 || r = 181 || r = 186 ||  -- ª µ º
    (192 ≤ r && r ≤ 214) ||    -- À..Ö
    (216 ≤ r && r ≤ 246) ||    -- Ø..ö
    (248 ≤ r && r ≤ 255)       -- ø..ÿ
  else
    true

/-- Go `unicode.IsDigit` on a rune code point.  Exact below 0x100 (only the
ASCII digits are in category Nd there); higher code points, unreachable from
the call sites in this development, are modelled as non-digits. -/
def goIsDigit (r : Nat) : Bool :=
  48 ≤ r && r ≤ 57             -- '0'..'9'

/-- Go `unicode.IsSpace` on a rune code point.  Exact below 0x100:
tab, newline, vertical tab, form feed, carriage return, space, NEL (0x85)
and no-break space (0xA0).  The one call site converts a single byte to a
rune, so only code points below 0x100 are reachable. -/
def goIsSpace (r : Nat) : Bool :=
  r = 9 || r = 10 || r = 11 || r = 12 || r = 13 || r = 32 || r = 133 || r = 160

/-- Byte length of the UTF-8 encoding of a rune, `len(string(r))` in Go. -/
def utf8Len (r : Nat) : Nat :=
  if r < 128 then 1
  else if r < 2048 then 2
  else if r < 65536 then 3
  else 4

/-- Decode the first rune of `s[i:]` as Go's `[]rune` conversion does:
a well-formed UTF-8 sequence yields its code point, anything else yields
the replacement rune 0xFFFD. -/
def decodeRuneAt (s : List Nat) (i : Nat) : Nat :=
  let b0 := byteAt s i
  let b1 := byteAt s (i + 1)
  let b2 := byteAt s (i + 2)
  let b3 := byteAt s (i + 3)
  let cont : Nat → Bool := fun b => 128 ≤ b && b ≤ 191
  if b0 < 128 then b0
  else if 194 ≤ b0 && b0 ≤ 223 then
    if i + 1 < s.length && cont b1 then (b0 - 192) * 64 + (b1 - 128) else 65533
  else if 224 ≤ b0 && b0 ≤ 239 then
    let lo1 : Nat := if b0 = 224 then 160 else 128
    let hi1 : Nat := if b0 = 237 then 159 else 191
    if i + 2 < s.length && (lo1 ≤ b1 && b1 ≤ hi1) && cont b2 then
      (b0 - 224) * 4096 + (b1 - 128) * 64 + (b2 - 128)
    else 65533
  else if 240 ≤ b0 && b0 ≤ 244 then
    let lo1 : Nat := if b0 = 240 then 144 else 128
    let hi1 : Nat := if b0 = 244 then 143 else 191
    if i + 3 < s.length && (lo1 ≤ b1 && b1 ≤ hi1) && cont b2 && cont b3 then
      (b0 - 240) * 262144 + (b1 - 128) * 4096 + (b2 - 128) * 64 + (b3 - 128)
    else 65533
  else 65533

/-- Source `utf8At`: the rune at byte offset `i` and its width (the width is
the encoded length of the decoded rune, as the source computes
`len(string(rr[:1]))`). -/
def utf8At (s : List Nat) (i : Nat) : Nat × Nat :=
  let b := byteAt s i
  if b < 128 then (b, 1)
  else
    let r := decodeRuneAt s i
    (r, utf8Len r)

theorem utf8Len_pos (r : Nat) : 1 ≤ utf8Len r := by
  unfold utf8Len
  repeat (first | omega | split)

theorem utf8At_width_pos (s : List Nat) (i : Nat) : 1 ≤ (utf8At s i).2 := by
  unfold utf8At
  dsimp only
  split
  · exact Nat.le_refl 1
  · exact utf8Len_pos _

/-- Source `isLetterOrUnderscore`. -/
def isLetterOrUnderscore (r : Nat) : Bool :=
  r = 95 || goIsLetter r        -- '_'

/-- Source `isLetterDigitOrUnderscore`. -/
def isLetterDigitOrUnderscore (r : Nat) : Bool :=
  r = 95 || goIsLetter r || goIsDigit r

/-- Source `isValidIdentifierStart`: ASCII letter or underscore (byte test). -/
def isValidIdentifierStart (b : Nat) : Bool :=
  (97 ≤ b && b ≤ 122) ||       -- 'a'..'z'
  (65 ≤ b && b ≤ 90) ||        -- 'A'..'Z'
  b = 95                       -- '_'

/-- Source `isValidIdentifierChar`: identifier start, ASCII digit, dot or
square bracket (byte test). -/
def isValidIdentifierChar (b : Nat) : Bool :=
  isValidIdentifierStart b ||
  (48 ≤ b && b ≤ 57) ||        -- '0'..'9'
  b = 46 ||                    -- '.'
  b = 91 || b = 93             -- '[' ']'

/-- Inner loop of source `readIdent`: advance over letter/digit/underscore
runes, returning the final offset. -/
def readIdentRest (s : List Nat) (i : Nat) : Nat :=
  if _h : i < s.length then
    let rw := utf8At s i
    if isLetterDigitOrUnderscore rw.1 then
      readIdentRest s (i + rw.2)
    else i
  else i
termination_by s.length - i
decreasing_by
  have := utf8At_width_pos s i
  omega

/-- Source `readIdent`: from offset `i`, require a letter/underscore rune and
advance over the following letter/digit/underscore runes; `none` models the
`ok = false` return (in which case the source leaves `*i` unchanged). -/
def readIdent (s : List Nat) (i : Nat) : Option Nat :=
  if i ≥ s.length then none
  else
    let rw := utf8At s i
    if ¬ isLetterOrUnderscore rw.1 then none
    else some (readIdentRest s (i + rw.2))

/-- Inner loop of source `readDigits`: advance over ASCII digits. -/
def readDigitsEnd (s : List Nat) (i : Nat) : Nat :=
  if _h : i < s.length then
    if byteAt s i < 48 ∨ byteAt s i > 57 then i
    else readDigitsEnd s (i + 1)
  else i
termination_by s.length - i

/-- Source `readDigits`: require at least one ASCII digit at offset `i`. -/
def readDigits (s : List Nat) (i : Nat) : Option Nat :=
  if i ≥ s.length then none
  else
    let j := readDigitsEnd s i
    if j = i then none else some j

theorem readIdentRest_le (s : List Nat) (i : Nat) : i ≤ readIdentRest s i := by
  rw [readIdentRest]
  dsimp only
  split
  · split
    · have hw := utf8At_width_pos s i
      have ih := readIdentRest_le s (i + (utf8At s i).2)
      omega
    · exact Nat.le_refl i
  · exact Nat.le_refl i
termination_by s.length - i
decreasing_by
  have := utf8At_width_pos s i
  omega

theorem readIdent_le (s : List Nat) (i j : Nat) (h : readIdent s i = some j) :
    i + 1 ≤ j := by
  unfold readIdent at h
  dsimp only at h
  split at h
  · exact absurd h (by simp)
  · split at h
    · exact absurd h (by simp)
    · have hw := utf8At_width_pos s i
      have hr := readIdentRest_le s (i + (utf8At s i).2)
      simp only [Option.some.injEq] at h
      omega

theorem readDigitsEnd_le (s : List Nat) (i : Nat) : i ≤ readDigitsEnd s i := by
  rw [readDigitsEnd]
  split
  · split
    · exact Nat.le_refl i
    · have ih := readDigitsEnd_le s (i + 1)
      omega
  · exact Nat.le_refl i
termination_by s.length - i

theorem readDigits_le (s : List Nat) (i j : Nat) (h : readDigits s i = some j) :
    i + 1 ≤ j := by
  unfold readDigits at h
  dsimp only at h
  split at h
  · exact absurd h (by simp)
  · split at h
    · exact absurd h (by simp)
    · simp only [Option.some.injEq] at h
      have := readDigitsEnd_le s i
      omega

/-- Loop of source `isValidName` over the selector suffix: after the leading
identifier, accept repeated `.identifier` and `[digits]` blocks. -/
def isValidNameLoop (s : List Nat) (i : Nat) : Bool :=
  if _h : i < s.length then
    if byteAt s i = 46 then          -- '.'
      match _hj : readIdent s (i + 1) with
      | none => false
      | some j => isValidNameLoop s j
    else if byteAt s i = 91 then     -- '['
      match _hj : readDigits s (i + 1) with
      | none => false
      | some j =>
        if j ≥ s.length then false
        else if byteAt s j ≠ 93 then false   -- ']'
        else isValidNameLoop s (j + 1)
    else false
  else true
termination_by s.length - i
decreasing_by
  · have := readIdent_le s (i + 1) j _hj
    omega
  · have := readDigits_le s (i + 1) j _hj
    omega

/-- Source `isValidName`: non-empty, a leading identifier, then the
`.identifier` / `[digits]` suffix loop. -/
def isValidName (s : List Nat) : Bool :=
  if s = [] then false
  else
    match readIdent s 0 with
    | none => false
    | some i => isValidNameLoop s i

/-- Source `strings.Index(hay, needle)` on byte lists; `none` models the
negative return. -/
def indexOfFrom (hay needle : List Nat) : Option Nat :=
  if needle.isPrefixOf hay then some 0
  else
    match hay with
    | [] => none
    | _ :: t => (indexOfFrom t needle).map (· + 1)

theorem indexOfFrom_le (hay needle : List Nat) (k : Nat)
    (h : indexOfFrom hay needle = some k) : k + needle.length ≤ hay.length := by
  unfold indexOfFrom at h
  split at h
  · simp only [Option.some.injEq] at h
    subst h
    rename_i hp
    have := List.IsPrefix.length_le (List.isPrefixOf_iff_prefix.mp hp)
    omega
  · match hay, h with
    | _ :: t, h =>
      simp only [Option.map_eq_some'] at h
      obtain ⟨k', hk', rfl⟩ := h
      have := indexOfFrom_le t needle k' hk'
      simp only [List.length_cons]
      omega

/-- Source `QueryToken` (query_token.go): one placeholder occurrence. -/
structure QueryToken where
  Name : List Nat
  Index : Nat
  Start : Nat
  End : Nat
  Raw : List Nat
deriving DecidableEq

/-- Source `editState` (parse_state.go): a substitution span. -/
structure EditState where
  start : Nat
  stop : Nat          -- source field `end` (a reserved word here)
  repl : List Nat
deriving DecidableEq

/-- Source `Parameter` (identifiers.go). -/
structure Parameter where
  Name : List Nat
  Index : Nat
deriving DecidableEq

/-- Source `parseState` (parse_state.go); `indexOf` (a Go map) is modelled
as an association list consulted through `lookupIndex`. -/
structure ParseState where
  src : List Nat
  n : Nat
  i : Nat
  edits : List EditState
  order : List (List Nat)
  indexOf : List (List Nat × Nat)
  tokens : List QueryToken
deriving DecidableEq

/-- Source `newParseState`. -/
def newParseState (sqlText : List Nat) : ParseState :=
  { src := sqlText, n := sqlText.length, i := 0,
    edits := [], order := [], indexOf := [], tokens := [] }

/-- Map lookup on the association list modelling `s.indexOf`. -/
def lookupIndex : List (List Nat × Nat) → List Nat → Option Nat
  | [], _ => none
  | (k, v) :: rest, nm => if k = nm then some v else lookupIndex rest nm

/-- Source `getIndex`: return the remembered index for `name`, or allocate
the next sequential one (1-based, appending to `order`). -/
def getIndex (s : ParseState) (name : List Nat) : Nat × ParseState :=
  match lookupIndex s.indexOf name with
  | some idx => (idx, s)
  | none =>
    let order := s.order ++ [name]
    let idx := order.length
    (idx, { s with order := order, indexOf := (name, idx) :: s.indexOf })

/-- Source `peek`: the byte `k` positions ahead, or the zero byte. -/
def ParseState.peek (s : ParseState) (k : Nat) : Nat :=
  if s.i + k < s.n then byteAt s.src (s.i + k) else 0

/-- Loop of source `consumeSingleQuoted`, transcribed with its dead
escaped-quote branch: inside the loop `s.i + 1 ≤ s.n` always holds, so the
first `if` inside the quote case always returns. -/
def consumeSingleQuotedLoop (src : List Nat) (n i : Nat) : Nat :=
  if _h : i < n then
    let c := byteAt src i
    let i1 := i + 1
    if c = 39 then                               -- '\''
      if i1 ≤ n then i1
      else if byteAt src i1 ≠ 39 then i1
      else consumeSingleQuotedLoop src n (i1 + 1)
    else consumeSingleQuotedLoop src n i1
  else i
termination_by n - i

/-- Source `consumeSingleQuoted`. -/
def consumeSingleQuoted (s : ParseState) : ParseState :=
  { s with i := consumeSingleQuotedLoop s.src s.n (s.i + 1) }

/-- Shared loop shape of source `consumeDoubleQuoted`, `consumeBacktick`
and `consumeBracketIdent`: consume until the single closing byte `delim`
(the three source functions are byte-for-byte identical up to that byte). -/
def consumeDelimitedLoop (delim : Nat) (src : List Nat) (n i : Nat) : Nat :=
  if _h : i < n then
    let c := byteAt src i
    if c = delim then i + 1
    else consumeDelimitedLoop delim src n (i + 1)
  else i
termination_by n - i

/-- Source `consumeDoubleQuoted`. -/
def consumeDoubleQuoted (s : ParseState) : ParseState :=
  { s with i := consumeDelimitedLoop 34 s.src s.n (s.i + 1) }   -- '"'

/-- Source `consumeBacktick`. -/
def consumeBacktick (s : ParseState) : ParseState :=
  { s with i := consumeDelimitedLoop 96 s.src s.n (s.i + 1) }   -- backtick

/-- Source `consumeBracketIdent`. -/
def consumeBracketIdent (s : ParseState) : ParseState :=
  { s with i := consumeDelimitedLoop 93 s.src s.n (s.i + 1) }   -- ']'

/-- Loop shared by source `consumeDashDash` and `consumeHashComment`:
advance to the next newline or end of input. -/
def consumeToNewline (src : List Nat) (n i : Nat) : Nat :=
  if _h : i < n then
    if byteAt src i ≠ 10 then consumeToNewline src n (i + 1) else i
  else i
termination_by n - i

/-- Source `consumeDashDash` (the dispatcher advances past `--` first). -/
def consumeDashDash (s : ParseState) : ParseState :=
  { s with i := consumeToNewline s.src s.n s.i }

/-- Source `consumeHashComment`. -/
def consumeHashComment (s : ParseState) : ParseState :=
  { s with i := consumeToNewline s.src s.n (s.i + 1) }

/-- First loop of source `consumeBlockComment`; `true` means the comment
was closed via the `goto end` at the returned offset. -/
def consumeBlockCommentLoop1 (src : List Nat) (n i : Nat) : Bool × Nat :=
  if _h : i < n - 1 then
    if byteAt src i ≠ 42 then consumeBlockCommentLoop1 src n (i + 1)       -- '*'
    else if byteAt src (i + 1) ≠ 47 then consumeBlockCommentLoop1 src n (i + 1)  -- '/'
    else (true, i + 2)
  else (false, i)
termination_by n - i

/-- Second loop of source `consumeBlockComment` (same scan, written with a
conjunction in the source). -/
def consumeBlockCommentLoop2 (src : List Nat) (n i : Nat) : Bool × Nat :=
  if _h : i < n - 1 then
    if byteAt src i = 42 ∧ byteAt src (i + 1) = 47 then (true, i + 2)
    else consumeBlockCommentLoop2 src n (i + 1)
  else (false, i)
termination_by n - i

/-- Source `consumeBlockComment`: skip the opening `/*`, run both scan
loops, and fall back to end-of-input when no `*/` is found. -/
def consumeBlockComment (s : ParseState) : ParseState :=
  let r1 := consumeBlockCommentLoop1 s.src s.n (s.i + 2)
  if r1.1 then { s with i := r1.2 }
  else
    let r2 := consumeBlockCommentLoop2 s.src s.n r1.2
    if r2.1 then { s with i := r2.2 }
    else { s with i := s.n }

/-- Tag-reading loop of source `consumeDollarQuoted`: `some` is the offset
after the loop (left normally or via the `$` break); `none` models the
early exit on a byte that cannot belong to a tag. -/
def consumeDollarTagLoop (src : List Nat) (n i : Nat) : Option Nat :=
  if _h : i < n then
    let c := byteAt src i
    if c = 36 then some (i + 1)                     -- '$'
    else if c ≠ 95 ∧ ¬ goIsLetter c ∧ ¬ goIsDigit c then none
    else consumeDollarTagLoop src n (i + 1)
  else some i
termination_by n - i

/-- Source `consumeDollarQuoted`. -/
def consumeDollarQuoted (s : ParseState) : ParseState :=
  let start := s.i
  match consumeDollarTagLoop s.src s.n (s.i + 1) with
  | none => { s with i := start + 1 }
  | some i1 =>
    if i1 > s.n then { s with i := s.n }
    else
      let tag := goSlice s.src start i1
      match indexOfFrom (s.src.drop i1) tag with
      | none => { s with i := s.n }
      | some idx => { s with i := i1 + idx + tag.length }

/-- Whitespace loop of source `consumeOracleQ`. -/
def oracleSpacesLoop (src : List Nat) (n i : Nat) : Nat :=
  if _h : i < n then
    if goIsSpace (byteAt src i) then oracleSpacesLoop src n (i + 1) else i
  else i
termination_by n - i

/-- Body loop of source `consumeOracleQ`: `true` means the span closed at
`closeDelim` followed by `'` (offset past both); `false` is the EOF break
or natural loop exit (the source then sets the cursor to end-of-input). -/
def oracleBodyLoop (src : List Nat) (n closeDelim i : Nat) : Bool × Nat :=
  if _h : i < n then
    if byteAt src i = closeDelim then
      if i + 1 ≥ n then (false, i)
      else if byteAt src (i + 1) ≠ 39 then oracleBodyLoop src n closeDelim (i + 1)
      else (true, i + 2)
    else oracleBodyLoop src n closeDelim (i + 1)
  else (false, i)
termination_by n - i

/-- Source `consumeOracleQ`: entered at `q`/`Q`; rejections advance past
just that byte. -/
def consumeOracleQ (s : ParseState) : ParseState :=
  let start := s.i
  if start + 1 ≥ s.n then { s with i := start + 1 }
  else if byteAt s.src (start + 1) ≠ 39 ∧ byteAt s.src (start + 1) ≠ 32 then
    { s with i := start + 1 }
  else
    let i1 := oracleSpacesLoop s.src s.n (start + 1)
    if i1 ≥ s.n ∨ byteAt s.src i1 ≠ 39 then { s with i := start + 1 }
    else if i1 + 1 ≥ s.n then { s with i := s.n }
    else
      let delim := byteAt s.src (i1 + 1)
      let closeDelim :=
        if delim = 60 then 62              -- '<' → '>'
        else if delim = 40 then 41         -- '(' → ')'
        else if delim = 91 then 93         -- '[' → ']'
        else if delim = 123 then 125       -- opening brace → closing brace
        else delim
      match oracleBodyLoop s.src s.n closeDelim (i1 + 2) with
      | (true, j) => { s with i := j }
      | (false, _) => { s with i := s.n }

/-- Sentinel errors of errors.go that the parse operation can return,
together with the key/value context `NewErr` attaches
(`"name", rawName, "offset", start`). -/
inductive ParseError where
  | formatParamFuncRequired
  | invalidPlaceholderName (name : List Nat) (offset : Nat)
deriving DecidableEq

/-- Identifier scan loop of source `consumePlaceholder`:
`for j < s.n && isValidIdentifierChar(s.src[j]) { j++ }`. -/
def scanIdentEnd (src : List Nat) (n j : Nat) : Nat :=
  if _h : j < n then
    if isValidIdentifierChar (byteAt src j) then scanIdentEnd src n (j + 1) else j
  else j
termination_by n - j

/-- Source `consumePlaceholder`: entered at `:`; scan the maximal identifier
run, validate it, then register the name and record a token and an edit. -/
def consumePlaceholder (formatFunc : Nat → List Nat) (s : ParseState) :
    Except ParseError ParseState :=
  let start := s.i
  let i1 := s.i + 1
  if i1 ≥ s.n ∨ ¬ isValidIdentifierStart (byteAt s.src i1) then
    Except.ok { s with i := i1 }
  else
    let j := scanIdentEnd s.src s.n i1
    let rawName := goSlice s.src i1 j
    if ¬ isValidName rawName then
      Except.error (ParseError.invalidPlaceholderName rawName start)
    else
      let p := getIndex s rawName
      Except.ok { p.2 with
        tokens := p.2.tokens ++ [⟨rawName, p.1, start, j, goSlice s.src start j⟩],
        edits := p.2.edits ++ [⟨start, j, formatFunc p.1⟩],
        i := j }

theorem consumeSingleQuotedLoop_le (src : List Nat) (n i : Nat) :
    i ≤ consumeSingleQuotedLoop src n i := by
  rw [consumeSingleQuotedLoop]
  dsimp only
  split
  · split
    · split
      · omega
      · split
        · omega
        · have := consumeSingleQuotedLoop_le src n (i + 1 + 1)
          omega
    · have := consumeSingleQuotedLoop_le src n (i + 1)
      omega
  · exact Nat.le_refl i
termination_by n - i

theorem consumeSingleQuotedLoop_bound (src : List Nat) (n i : Nat) (h : i ≤ n) :
    consumeSingleQuotedLoop src n i ≤ n := by
  rw [consumeSingleQuotedLoop]
  dsimp only
  split
  · split
    · split
      · omega
      · omega
      -- the third arm is dead: inside the loop `i + 1 ≤ n` always holds
    · exact consumeSingleQuotedLoop_bound src n (i + 1) (by omega)
  · exact h
termination_by n - i

theorem consumeDelimitedLoop_le (d : Nat) (src : List Nat) (n i : Nat) :
    i ≤ consumeDelimitedLoop d src n i := by
  rw [consumeDelimitedLoop]
  dsimp only
  split
  · split
    · omega
    · have := consumeDelimitedLoop_le d src n (i + 1)
      omega
  · exact Nat.le_refl i
termination_by n - i

theorem consumeDelimitedLoop_bound (d : Nat) (src : List Nat) (n i : Nat) (h : i ≤ n) :
    consumeDelimitedLoop d src n i ≤ n := by
  rw [consumeDelimitedLoop]
  dsimp only
  split
  · split
    · omega
    · exact consumeDelimitedLoop_bound d src n (i + 1) (by omega)
  · exact h
termination_by n - i

theorem consumeToNewline_le (src : List Nat) (n i : Nat) :
    i ≤ consumeToNewline src n i := by
  rw [consumeToNewline]
  split
  · split
    · have := consumeToNewline_le src n (i + 1)
      omega
    · exact Nat.le_refl i
  · exact Nat.le_refl i
termination_by n - i

theorem consumeToNewline_bound (src : List Nat) (n i : Nat) (h : i ≤ n) :
    consumeToNewline src n i ≤ n := by
  rw [consumeToNewline]
  split
  · split
    · exact consumeToNewline_bound src n (i + 1) (by omega)
    · exact h
  · exact h
termination_by n - i

theorem consumeBlockCommentLoop1_le (src : List Nat) (n i : Nat) :
    i ≤ (consumeBlockCommentLoop1 src n i).2 := by
  rw [consumeBlockCommentLoop1]
  split
  · split
    · have := consumeBlockCommentLoop1_le src n (i + 1)
      omega
    · split
      · have := consumeBlockCommentLoop1_le src n (i + 1)
        omega
      · simp
  · simp
termination_by n - i

theorem consumeBlockCommentLoop1_bound (src : List Nat) (n i : Nat) (h : i ≤ n) :
    (consumeBlockCommentLoop1 src n i).2 ≤ n := by
  rw [consumeBlockCommentLoop1]
  split
  · split
    · exact consumeBlockCommentLoop1_bound src n (i + 1) (by omega)
    · split
      · exact consumeBlockCommentLoop1_bound src n (i + 1) (by omega)
      · simp only
        omega
  · exact h
termination_by n - i

theorem consumeBlockCommentLoop2_le (src : List Nat) (n i : Nat) :
    i ≤ (consumeBlockCommentLoop2 src n i).2 := by
  rw [consumeBlockCommentLoop2]
  split
  · split
    · simp
    · have := consumeBlockCommentLoop2_le src n (i + 1)
      omega
  · simp
termination_by n - i

theorem consumeBlockCommentLoop2_bound (src : List Nat) (n i : Nat) (h : i ≤ n) :
    (consumeBlockCommentLoop2 src n i).2 ≤ n := by
  rw [consumeBlockCommentLoop2]
  split
  · split
    · simp only
      omega
    · exact consumeBlockCommentLoop2_bound src n (i + 1) (by omega)
  · exact h
termination_by n - i

theorem consumeDollarTagLoop_le (src : List Nat) (n i j : Nat)
    (h : consumeDollarTagLoop src n i = some j) : i ≤ j := by
  rw [consumeDollarTagLoop] at h
  dsimp only at h
  split at h
  · split at h
    · simp only [Option.some.injEq] at h
      omega
    · split at h
      · exact absurd h (by simp)
      · have := consumeDollarTagLoop_le src n (i + 1) j h
        omega
  · simp only [Option.some.injEq] at h
    omega
termination_by n - i

theorem consumeDollarTagLoop_bound (src : List Nat) (n i j : Nat) (hin : i ≤ n)
    (h : consumeDollarTagLoop src n i = some j) : j ≤ n := by
  rw [consumeDollarTagLoop] at h
  dsimp only at h
  split at h
  · split at h
    · simp only [Option.some.injEq] at h
      omega
    · split at h
      · exact absurd h (by simp)
      · exact consumeDollarTagLoop_bound src n (i + 1) j (by omega) h
  · simp only [Option.some.injEq] at h
    omega
termination_by n - i

theorem oracleSpacesLoop_le (src : List Nat) (n i : Nat) :
    i ≤ oracleSpacesLoop src n i := by
  rw [oracleSpacesLoop]
  split
  · split
    · have := oracleSpacesLoop_le src n (i + 1)
      omega
    · omega
  · omega
termination_by n - i

theorem oracleSpacesLoop_bound (src : List Nat) (n i : Nat) (h : i ≤ n) :
    oracleSpacesLoop src n i ≤ n := by
  rw [oracleSpacesLoop]
  split
  · split
    · exact oracleSpacesLoop_bound src n (i + 1) (by omega)
    · exact h
  · exact h
termination_by n - i

theorem oracleBodyLoop_le (src : List Nat) (n d i : Nat) :
    i ≤ (oracleBodyLoop src n d i).2 := by
  rw [oracleBodyLoop]
  split
  · split
    · split
      · simp
      · split
        · have := oracleBodyLoop_le src n d (i + 1)
          omega
        · simp only
          omega
    · have := oracleBodyLoop_le src n d (i + 1)
      omega
  · simp
termination_by n - i

theorem oracleBodyLoop_closed_bound (src : List Nat) (n d i j : Nat)
    (h : oracleBodyLoop src n d i = (true, j)) : j ≤ n := by
  rw [oracleBodyLoop] at h
  split at h
  · split at h
    · split at h
      · exact absurd h (by simp)
      · split at h
        · exact oracleBodyLoop_closed_bound src n d (i + 1) j h
        · simp only [Prod.mk.injEq] at h
          omega
    · exact oracleBodyLoop_closed_bound src n d (i + 1) j h
  · exact absurd h (by simp)
termination_by n - i

theorem scanIdentEnd_le (src : List Nat) (n j : Nat) : j ≤ scanIdentEnd src n j := by
  rw [scanIdentEnd]
  split
  · split
    · have := scanIdentEnd_le src n (j + 1)
      omega
    · omega
  · omega
termination_by n - j

theorem scanIdentEnd_bound (src : List Nat) (n j : Nat) (h : j ≤ n) :
    scanIdentEnd src n j ≤ n := by
  rw [scanIdentEnd]
  split
  · split
    · exact scanIdentEnd_bound src n (j + 1) (by omega)
    · exact h
  · exact h
termination_by n - j

/-- Relation between a state and the result of a pure skip routine: only the
cursor may change. -/
def OnlyAdvances (s t : ParseState) : Prop :=
  t.src = s.src ∧ t.n = s.n ∧ t.edits = s.edits ∧ t.order = s.order ∧
    t.indexOf = s.indexOf ∧ t.tokens = s.tokens

theorem onlyAdvances_set_i (s : ParseState) (k : Nat) :
    OnlyAdvances s { s with i := k } :=
  ⟨rfl, rfl, rfl, rfl, rfl, rfl⟩

theorem consumeSingleQuoted_spec (s : ParseState) :
    OnlyAdvances s (consumeSingleQuoted s) ∧
      (s.i < s.n → s.i < (consumeSingleQuoted s).i ∧ (consumeSingleQuoted s).i ≤ s.n) := by
  refine ⟨onlyAdvances_set_i s _, fun h => ?_⟩
  have h1 := consumeSingleQuotedLoop_le s.src s.n (s.i + 1)
  have h2 := consumeSingleQuotedLoop_bound s.src s.n (s.i + 1) (by omega)
  unfold consumeSingleQuoted
  dsimp only
  omega

theorem consumeDoubleQuoted_spec (s : ParseState) :
    OnlyAdvances s (consumeDoubleQuoted s) ∧
      (s.i < s.n → s.i < (consumeDoubleQuoted s).i ∧ (consumeDoubleQuoted s).i ≤ s.n) := by
  refine ⟨onlyAdvances_set_i s _, fun h => ?_⟩
  have h1 := consumeDelimitedLoop_le 34 s.src s.n (s.i + 1)
  have h2 := consumeDelimitedLoop_bound 34 s.src s.n (s.i + 1) (by omega)
  unfold consumeDoubleQuoted
  dsimp only
  omega

theorem consumeBacktick_spec (s : ParseState) :
    OnlyAdvances s (consumeBacktick s) ∧
      (s.i < s.n → s.i < (consumeBacktick s).i ∧ (consumeBacktick s).i ≤ s.n) := by
  refine ⟨onlyAdvances_set_i s _, fun h => ?_⟩
  have h1 := consumeDelimitedLoop_le 96 s.src s.n (s.i + 1)
  have h2 := consumeDelimitedLoop_bound 96 s.src s.n (s.i + 1) (by omega)
  unfold consumeBacktick
  dsimp only
  omega

theorem consumeBracketIdent_spec (s : ParseState) :
    OnlyAdvances s (consumeBracketIdent s) ∧
      (s.i < s.n → s.i < (consumeBracketIdent s).i ∧ (consumeBracketIdent s).i ≤ s.n) := by
  refine ⟨onlyAdvances_set_i s _, fun h => ?_⟩
  have h1 := consumeDelimitedLoop_le 93 s.src s.n (s.i + 1)
  have h2 := consumeDelimitedLoop_bound 93 s.src s.n (s.i + 1) (by omega)
  unfold consumeBracketIdent
  dsimp only
  omega

theorem consumeHashComment_spec (s : ParseState) :
    OnlyAdvances s (consumeHashComment s) ∧
      (s.i < s.n → s.i < (consumeHashComment s).i ∧ (consumeHashComment s).i ≤ s.n) := by
  refine ⟨onlyAdvances_set_i s _, fun h => ?_⟩
  have h1 := consumeToNewline_le s.src s.n (s.i + 1)
  have h2 := consumeToNewline_bound s.src s.n (s.i + 1) (by omega)
  unfold consumeHashComment
  dsimp only
  omega

theorem consumeDashDash_spec (s : ParseState) (h : s.i ≤ s.n) :
    OnlyAdvances s (consumeDashDash s) ∧
      s.i ≤ (consumeDashDash s).i ∧ (consumeDashDash s).i ≤ s.n := by
  refine ⟨onlyAdvances_set_i s _, ?_⟩
  have h1 := consumeToNewline_le s.src s.n s.i
  have h2 := consumeToNewline_bound s.src s.n s.i h
  unfold consumeDashDash
  dsimp only
  omega

theorem consumeBlockComment_spec (s : ParseState) :
    OnlyAdvances s (consumeBlockComment s) ∧
      (s.i + 2 ≤ s.n → s.i < (consumeBlockComment s).i ∧ (consumeBlockComment s).i ≤ s.n) := by
  unfold consumeBlockComment
  dsimp only
  constructor
  · split
    · exact onlyAdvances_set_i s _
    · split
      · exact onlyAdvances_set_i s _
      · exact onlyAdvances_set_i s _
  · intro h
    have h1 := consumeBlockCommentLoop1_le s.src s.n (s.i + 2)
    have h2 := consumeBlockCommentLoop1_bound s.src s.n (s.i + 2) h
    split
    · dsimp only
      omega
    · have h3 := consumeBlockCommentLoop2_le s.src s.n
        (consumeBlockCommentLoop1 s.src s.n (s.i + 2)).2
      have h4 := consumeBlockCommentLoop2_bound s.src s.n
        (consumeBlockCommentLoop1 s.src s.n (s.i + 2)).2 h2
      split
      · dsimp only
        omega
      · dsimp only
        omega

theorem consumeDollarQuoted_spec (s : ParseState) :
    OnlyAdvances s (consumeDollarQuoted s) ∧
      (s.i < s.n → s.i < (consumeDollarQuoted s).i) ∧
      (s.i < s.n → s.n = s.src.length → (consumeDollarQuoted s).i ≤ s.n) := by
  unfold consumeDollarQuoted
  dsimp only
  constructor
  · split
    · exact onlyAdvances_set_i s _
    · split
      · exact onlyAdvances_set_i s _
      · split
        · exact onlyAdvances_set_i s _
        · exact onlyAdvances_set_i s _
  constructor
  · intro h
    split
    · dsimp only
      omega
    · rename_i i1 htag
      have h1 := consumeDollarTagLoop_le s.src s.n (s.i + 1) i1 htag
      split
      · dsimp only
        omega
      · split
        · dsimp only
          omega
        · dsimp only
          omega
  · intro h hn
    split
    · dsimp only
      omega
    · rename_i i1 htag
      have h1 := consumeDollarTagLoop_le s.src s.n (s.i + 1) i1 htag
      have h2 := consumeDollarTagLoop_bound s.src s.n (s.i + 1) i1 (by omega) htag
      split
      · dsimp only
        omega
      · split
        · dsimp only
          omega
        · rename_i idx hidx
          have h3 := indexOfFrom_le (s.src.drop i1) (goSlice s.src s.i i1) idx hidx
          have h4 : (s.src.drop i1).length = s.src.length - i1 := by
            simp
          dsimp only
          omega

theorem consumeOracleQ_spec (s : ParseState) :
    OnlyAdvances s (consumeOracleQ s) ∧
      (s.i < s.n → s.i < (consumeOracleQ s).i ∧ (consumeOracleQ s).i ≤ s.n) := by
  unfold consumeOracleQ
  dsimp only
  constructor
  · split
    · exact onlyAdvances_set_i s _
    · split
      · exact onlyAdvances_set_i s _
      · split
        · exact onlyAdvances_set_i s _
        · split
          · exact onlyAdvances_set_i s _
          · split
            · exact onlyAdvances_set_i s _
            · exact onlyAdvances_set_i s _
  · intro h
    split
    · dsimp only
      omega
    · split
      · dsimp only
        omega
      · have h1 := oracleSpacesLoop_le s.src s.n (s.i + 1)
        split
        · dsimp only
          omega
        · split
          · dsimp only
            omega
          · split
            · rename_i pr j hj
              have h2 := oracleBodyLoop_le s.src s.n
                (if byteAt s.src (oracleSpacesLoop s.src s.n (s.i + 1) + 1) = 60 then 62
                 else if byteAt s.src (oracleSpacesLoop s.src s.n (s.i + 1) + 1) = 40 then 41
                 else if byteAt s.src (oracleSpacesLoop s.src s.n (s.i + 1) + 1) = 91 then 93
                 else if byteAt s.src (oracleSpacesLoop s.src s.n (s.i + 1) + 1) = 123 then 125
                 else byteAt s.src (oracleSpacesLoop s.src s.n (s.i + 1) + 1))
                (oracleSpacesLoop s.src s.n (s.i + 1) + 2)
              have h3 := oracleBodyLoop_closed_bound s.src s.n
                (if byteAt s.src (oracleSpacesLoop s.src s.n (s.i + 1) + 1) = 60 then 62
                 else if byteAt s.src (oracleSpacesLoop s.src s.n (s.i + 1) + 1) = 40 then 41
                 else if byteAt s.src (oracleSpacesLoop s.src s.n (s.i + 1) + 1) = 91 then 93
                 else if byteAt s.src (oracleSpacesLoop s.src s.n (s.i + 1) + 1) = 123 then 125
                 else byteAt s.src (oracleSpacesLoop s.src s.n (s.i + 1) + 1))
                (oracleSpacesLoop s.src s.n (s.i + 1) + 2) j hj
              rw [hj] at h2
              dsimp only at h2 ⊢
              omega
            · dsimp only
              omega

theorem getIndex_preserves (s : ParseState) (nm : List Nat) :
    (getIndex s nm).2.src = s.src ∧ (getIndex s nm).2.n = s.n ∧
      (getIndex s nm).2.i = s.i ∧ (getIndex s nm).2.edits = s.edits ∧
      (getIndex s nm).2.tokens = s.tokens := by
  unfold getIndex
  dsimp only
  split <;> exact ⟨rfl, rfl, rfl, rfl, rfl⟩

theorem consumePlaceholder_ok_spec (f : Nat → List Nat) (s s' : ParseState)
    (hlt : s.i < s.n) (h : consumePlaceholder f s = Except.ok s') :
    s'.src = s.src ∧ s'.n = s.n ∧ s.i < s'.i ∧ s'.i ≤ s.n := by
  unfold consumePlaceholder at h
  dsimp only at h
  split at h
  · simp only [Except.ok.injEq] at h
    subst h
    exact ⟨rfl, rfl, by dsimp only; omega, by dsimp only; omega⟩
  · split at h
    · exact absurd h (by simp)
    · simp only [Except.ok.injEq] at h
      subst h
      have hp := getIndex_preserves s (goSlice s.src (s.i + 1) (scanIdentEnd s.src s.n (s.i + 1)))
      have h1 := scanIdentEnd_le s.src s.n (s.i + 1)
      have h2 := scanIdentEnd_bound s.src s.n (s.i + 1) (by omega)
      exact ⟨hp.1, hp.2.1, by dsimp only; omega, by dsimp only; omega⟩

/-- One iteration of the dispatch loop of source `ParseSQL`: classify the
byte at the cursor and route to a skipper, the cast skip, the placeholder
recognizer, or the default single-byte advance. -/
def scanStep (formatFunc : Nat → List Nat) (s : ParseState) :
    Except ParseError ParseState :=
  if byteAt s.src s.i = 45 then                                    -- '-'
    if s.peek 1 = 45 then Except.ok (consumeDashDash { s with i := s.i + 2 })
    else Except.ok { s with i := s.i + 1 }
  else if byteAt s.src s.i = 35 then Except.ok (consumeHashComment s)        -- '#'
  else if byteAt s.src s.i = 47 then                               -- '/'
    if s.peek 1 = 42 then Except.ok (consumeBlockComment s)   -- '*'
    else Except.ok { s with i := s.i + 1 }
  else if byteAt s.src s.i = 39 then Except.ok (consumeSingleQuoted s)       -- '\''
  else if byteAt s.src s.i = 34 then Except.ok (consumeDoubleQuoted s)       -- '"'
  else if byteAt s.src s.i = 96 then Except.ok (consumeBacktick s)           -- backtick
  else if byteAt s.src s.i = 91 then Except.ok (consumeBracketIdent s)       -- '['
  else if byteAt s.src s.i = 36 then Except.ok (consumeDollarQuoted s)       -- '$'
  else if byteAt s.src s.i = 113 ∨ byteAt s.src s.i = 81 then Except.ok (consumeOracleQ s)  -- 'q' 'Q'
  else if byteAt s.src s.i = 58 then                               -- ':'
    if s.peek 1 = 58 then Except.ok { s with i := s.i + 2 }
    else if s.i + 1 < s.n ∧ isValidIdentifierStart (byteAt s.src (s.i + 1)) then
      consumePlaceholder formatFunc s
    else Except.ok { s with i := s.i + 1 }
  else Except.ok { s with i := s.i + 1 }

theorem peek_eq_imp_lt (s : ParseState) (k c : Nat) (hc : c ≠ 0)
    (h : s.peek k = c) : s.i + k < s.n := by
  unfold ParseState.peek at h
  split at h
  · assumption
  · exact absurd h.symm hc


theorem scanStep_ok_spec (f : Nat → List Nat) (s s' : ParseState)
    (hlt : s.i < s.n) (h : scanStep f s = Except.ok s') :
    s'.src = s.src ∧ s'.n = s.n ∧ s.i < s'.i ∧ (s.n = s.src.length → s'.i ≤ s.n) := by
  rw [scanStep] at h
  by_cases h45 : byteAt s.src s.i = 45
  · rw [if_pos h45] at h
    by_cases hp : s.peek 1 = 45
    · rw [if_pos hp] at h
      have hb := peek_eq_imp_lt s 1 45 (by omega) hp
      simp only [Except.ok.injEq] at h
      subst h
      have hs := consumeDashDash_spec { s with i := s.i + 2 } (by dsimp only; omega)
      obtain ⟨⟨o1, o2, _, _, _, _⟩, l1, l2⟩ := hs
      dsimp only at l1 l2 o2
      exact ⟨o1, o2, by omega, fun _ => by omega⟩
    · rw [if_neg hp] at h
      simp only [Except.ok.injEq] at h
      subst h
      exact ⟨rfl, rfl, by dsimp only; omega, fun _ => by dsimp only; omega⟩
  · rw [if_neg h45] at h
    by_cases h35 : byteAt s.src s.i = 35
    · rw [if_pos h35] at h
      simp only [Except.ok.injEq] at h
      subst h
      obtain ⟨⟨o1, o2, _, _, _, _⟩, hp⟩ := consumeHashComment_spec s
      obtain ⟨l1, l2⟩ := hp hlt
      exact ⟨o1, o2, l1, fun _ => l2⟩
    · rw [if_neg h35] at h
      by_cases h47 : byteAt s.src s.i = 47
      · rw [if_pos h47] at h
        by_cases hp : s.peek 1 = 42
        · rw [if_pos hp] at h
          have hb := peek_eq_imp_lt s 1 42 (by omega) hp
          simp only [Except.ok.injEq] at h
          subst h
          obtain ⟨⟨o1, o2, _, _, _, _⟩, hq⟩ := consumeBlockComment_spec s
          obtain ⟨l1, l2⟩ := hq (by omega)
          exact ⟨o1, o2, l1, fun _ => l2⟩
        · rw [if_neg hp] at h
          simp only [Except.ok.injEq] at h
          subst h
          exact ⟨rfl, rfl, by dsimp only; omega, fun _ => by dsimp only; omega⟩
      · rw [if_neg h47] at h
        by_cases h39 : byteAt s.src s.i = 39
        · rw [if_pos h39] at h
          simp only [Except.ok.injEq] at h
          subst h
          obtain ⟨⟨o1, o2, _, _, _, _⟩, hp⟩ := consumeSingleQuoted_spec s
          obtain ⟨l1, l2⟩ := hp hlt
          exact ⟨o1, o2, l1, fun _ => l2⟩
        · rw [if_neg h39] at h
          by_cases h34 : byteAt s.src s.i = 34
          · rw [if_pos h34] at h
            simp only [Except.ok.injEq] at h
            subst h
            obtain ⟨⟨o1, o2, _, _, _, _⟩, hp⟩ := consumeDoubleQuoted_spec s
            obtain ⟨l1, l2⟩ := hp hlt
            exact ⟨o1, o2, l1, fun _ => l2⟩
          · rw [if_neg h34] at h
            by_cases h96 : byteAt s.src s.i = 96
            · rw [if_pos h96] at h
              simp only [Except.ok.injEq] at h
              subst h
              obtain ⟨⟨o1, o2, _, _, _, _⟩, hp⟩ := consumeBacktick_spec s
              obtain ⟨l1, l2⟩ := hp hlt
              exact ⟨o1, o2, l1, fun _ => l2⟩
            · rw [if_neg h96] at h
              by_cases h91 : byteAt s.src s.i = 91
              · rw [if_pos h91] at h
                simp only [Except.ok.injEq] at h
                subst h
                obtain ⟨⟨o1, o2, _, _, _, _⟩, hp⟩ := consumeBracketIdent_spec s
                obtain ⟨l1, l2⟩ := hp hlt
                exact ⟨o1, o2, l1, fun _ => l2⟩
              · rw [if_neg h91] at h
                by_cases h36 : byteAt s.src s.i = 36
                · rw [if_pos h36] at h
                  simp only [Except.ok.injEq] at h
                  subst h
                  obtain ⟨⟨o1, o2, _, _, _, _⟩, hp, hb⟩ := consumeDollarQuoted_spec s
                  exact ⟨o1, o2, hp hlt, fun hn => hb hlt hn⟩
                · rw [if_neg h36] at h
                  by_cases hq : byteAt s.src s.i = 113 ∨ byteAt s.src s.i = 81
                  · rw [if_pos hq] at h
                    simp only [Except.ok.injEq] at h
                    subst h
                    obtain ⟨⟨o1, o2, _, _, _, _⟩, hp⟩ := consumeOracleQ_spec s
                    obtain ⟨l1, l2⟩ := hp hlt
                    exact ⟨o1, o2, l1, fun _ => l2⟩
                  · rw [if_neg hq] at h
                    by_cases h58 : byteAt s.src s.i = 58
                    · rw [if_pos h58] at h
                      by_cases hp : s.peek 1 = 58
                      · rw [if_pos hp] at h
                        have hb := peek_eq_imp_lt s 1 58 (by omega) hp
                        simp only [Except.ok.injEq] at h
                        subst h
                        exact ⟨rfl, rfl, by dsimp only; omega, fun _ => by dsimp only; omega⟩
                      · rw [if_neg hp] at h
                        by_cases hv : s.i + 1 < s.n ∧ isValidIdentifierStart (byteAt s.src (s.i + 1)) = true
                        · rw [if_pos hv] at h
                          obtain ⟨e1, e2, e3, e4⟩ := consumePlaceholder_ok_spec f s s' hlt h
                          exact ⟨e1, e2, e3, fun _ => e4⟩
                        · rw [if_neg hv] at h
                          simp only [Except.ok.injEq] at h
                          subst h
                          exact ⟨rfl, rfl, by dsimp only; omega, fun _ => by dsimp only; omega⟩
                    · rw [if_neg h58] at h
                      simp only [Except.ok.injEq] at h
                      subst h
                      exact ⟨rfl, rfl, by dsimp only; omega, fun _ => by dsimp only; omega⟩

/-- Scan loop of source `ParseSQL` (the `for state.i < state.n` dispatch
loop); an error from the placeholder recognizer aborts the whole loop via
the source `goto end`. -/
def scanLoop (formatFunc : Nat → List Nat) (s : ParseState) :
    Except ParseError ParseState :=
  if h : s.i < s.n then
    match hstep : scanStep formatFunc s with
    | Except.error e => Except.error e
    | Except.ok s' => scanLoop formatFunc s'
  else Except.ok s
termination_by s.n - s.i
decreasing_by
  have hs := scanStep_ok_spec formatFunc s s' h hstep
  omega

/-- Insertion step for the sort in source `QueryTokens.Parameters`. -/
def insertByIndex (t : QueryToken) : List QueryToken → List QueryToken
  | [] => [t]
  | u :: rest => if t.Index ≤ u.Index then t :: u :: rest else u :: insertByIndex t rest

/-- Sort by ascending `Index`, modelling the `sort.Slice` call in source
`QueryTokens.Parameters` (the algorithm Go uses is unspecified on equal
keys; at both call sites the slice is empty or already strictly increasing
in `Index`, where every sort agrees with this one). -/
def sortByIndex : List QueryToken → List QueryToken
  | [] => []
  | t :: rest => insertByIndex t (sortByIndex rest)

/-- Source `QueryTokens.Parameters` (query_token.go): order the tokens by
`Index` and project each to a `Parameter`. -/
def tokensParameters (qts : List QueryToken) : List Parameter :=
  (sortByIndex qts).map (fun t => { Name := t.Name, Index := t.Index })

/-- Zero value a `make(QueryTokens, k)` slice is filled with. -/
def zeroQueryToken : QueryToken :=
  { Name := [], Index := 0, Start := 0, End := 0, Raw := [] }

/-- Source `orderedTokens`: place each token at slot `Index - 1` of a fresh
slice of length `len(order)`, skipping tokens whose index is out of range
or whose name disagrees with `order`. -/
def orderedTokens (s : ParseState) : List QueryToken :=
  s.tokens.foldl
    (fun ordered p =>
      if p.Index < 1 then ordered
      else if p.Index > s.order.length then ordered
      else if s.order.getD (p.Index - 1) [] ≠ p.Name then ordered
      else ordered.set (p.Index - 1) p)
    (List.replicate s.order.length zeroQueryToken)

/-- Loop of source `buildSQL`: thread the builder contents and the `last`
offset over the edit list, then append the tail. -/
def buildSQLLoop (src : List Nat) : List EditState → List Nat → Nat → List Nat
  | [], b, last => if last < src.length then b ++ goSlice src last src.length else b
  | e :: rest, b, last =>
      buildSQLLoop src rest
        ((if e.start > last then b ++ goSlice src last e.start else b) ++ e.repl) e.stop

/-- Source `buildSQL`. -/
def buildSQL (s : ParseState) : List Nat :=
  buildSQLLoop s.src s.edits [] 0

/-- Source `ParsedSQL` restricted to the fields the parse operation fills. -/
structure ParsedSQL where
  SQL : List Nat
  parameters : List Parameter
  occurrences : List QueryToken
deriving DecidableEq

/-- Source `NewParsedSQLWithOccurrences` (the nil-slice normalisation is
invisible on lists). -/
def NewParsedSQLWithOccurrences (SQL : List Nat) (parameters : List Parameter)
    (occurrences : List QueryToken) : ParsedSQL :=
  { SQL := SQL, parameters := parameters, occurrences := occurrences }

/-- Result assembly at the end of source `ParseSQL` after the scan loop.
With no edits the source text is returned unchanged; `state.tokens.Parameters()`
sorts `state.tokens` in place before that same slice is passed as the
occurrences argument, hence the `sortByIndex` on both.  With edits, the
rewritten text, the parameters of the `orderedTokens` copy, and the
untouched token list are returned. -/
def finishParse (st : ParseState) : ParsedSQL :=
  if st.edits = [] then
    NewParsedSQLWithOccurrences st.src (tokensParameters st.tokens) (sortByIndex st.tokens)
  else
    NewParsedSQLWithOccurrences (buildSQL st) (tokensParameters (orderedTokens st)) st.tokens

/-- Source `ParseSQL`: the nil check on the format function, the scan loop,
and the result assembly.  A `none` format function models a nil
`FormatParamFunc`. -/
def ParseSQL (sqlText : List Nat) (formatFunc : Option (Nat → List Nat)) :
    Except ParseError ParsedSQL :=
  match formatFunc with
  | none => Except.error ParseError.formatParamFuncRequired
  | some f =>
    match scanLoop f (newParseState sqlText) with
    | Except.error e => Except.error e
    | Except.ok st => Except.ok (finishParse st)

/-!
Fuelled mirrors.  The loop definitions above use well-founded recursion,
which the kernel does not reduce, so closed instances are evaluated through
structurally recursive mirrors taking an explicit fuel argument.  Each
mirror is proved equal to its original whenever the fuel covers the
remaining input, and every call site passes such a fuel; no mirror is a
second model of the source.
-/

def consumeSingleQuotedLoopF (src : List Nat) (n : Nat) : Nat → Nat → Nat
  | 0, i => i
  | fuel + 1, i =>
    if i < n then
      if byteAt src i = 39 then
        if i + 1 ≤ n then i + 1
        else if byteAt src (i + 1) ≠ 39 then i + 1
        else consumeSingleQuotedLoopF src n fuel (i + 1 + 1)
      else consumeSingleQuotedLoopF src n fuel (i + 1)
    else i

theorem consumeSingleQuotedLoopF_eq (src : List Nat) (n : Nat) :
    ∀ fuel i, n - i ≤ fuel →
      consumeSingleQuotedLoopF src n fuel i = consumeSingleQuotedLoop src n i := by
  intro fuel
  induction fuel with
  | zero =>
    intro i h
    rw [consumeSingleQuotedLoop]
    dsimp only
    rw [consumeSingleQuotedLoopF]
    split
    · omega
    · rfl
  | succ fuel ih =>
    intro i h
    rw [consumeSingleQuotedLoop]
    dsimp only
    show (if i < n then _ else i) = _
    by_cases hc : i < n
    · rw [if_pos hc, dif_pos hc]
      split
      · split
        · rfl
        · split
          · rfl
          · exact ih (i + 1 + 1) (by omega)
      · exact ih (i + 1) (by omega)
    · rw [if_neg hc, dif_neg hc]

def consumeDelimitedLoopF (d : Nat) (src : List Nat) (n : Nat) : Nat → Nat → Nat
  | 0, i => i
  | fuel + 1, i =>
    if i < n then
      if byteAt src i = d then i + 1
      else consumeDelimitedLoopF d src n fuel (i + 1)
    else i

theorem consumeDelimitedLoopF_eq (d : Nat) (src : List Nat) (n : Nat) :
    ∀ fuel i, n - i ≤ fuel →
      consumeDelimitedLoopF d src n fuel i = consumeDelimitedLoop d src n i := by
  intro fuel
  induction fuel with
  | zero =>
    intro i h
    rw [consumeDelimitedLoop]
    dsimp only
    rw [consumeDelimitedLoopF]
    split
    · omega
    · rfl
  | succ fuel ih =>
    intro i h
    rw [consumeDelimitedLoop]
    dsimp only
    show (if i < n then _ else i) = _
    by_cases hc : i < n
    · rw [if_pos hc, dif_pos hc]
      split
      · rfl
      · exact ih (i + 1) (by omega)
    · rw [if_neg hc, dif_neg hc]

def consumeToNewlineF (src : List Nat) (n : Nat) : Nat → Nat → Nat
  | 0, i => i
  | fuel + 1, i =>
    if i < n then
      if byteAt src i ≠ 10 then consumeToNewlineF src n fuel (i + 1) else i
    else i

theorem consumeToNewlineF_eq (src : List Nat) (n : Nat) :
    ∀ fuel i, n - i ≤ fuel → consumeToNewlineF src n fuel i = consumeToNewline src n i := by
  intro fuel
  induction fuel with
  | zero =>
    intro i h
    rw [consumeToNewline]
    rw [consumeToNewlineF]
    split
    · omega
    · rfl
  | succ fuel ih =>
    intro i h
    rw [consumeToNewline]
    show (if i < n then _ else i) = _
    by_cases hc : i < n
    · rw [if_pos hc, dif_pos hc]
      split
      · exact ih (i + 1) (by omega)
      · rfl
    · rw [if_neg hc, dif_neg hc]

def consumeBlockCommentLoop1F (src : List Nat) (n : Nat) : Nat → Nat → Bool × Nat
  | 0, i => (false, i)
  | fuel + 1, i =>
    if i < n - 1 then
      if byteAt src i ≠ 42 then consumeBlockCommentLoop1F src n fuel (i + 1)
      else if byteAt src (i + 1) ≠ 47 then consumeBlockCommentLoop1F src n fuel (i + 1)
      else (true, i + 2)
    else (false, i)

theorem consumeBlockCommentLoop1F_eq (src : List Nat) (n : Nat) :
    ∀ fuel i, n - i ≤ fuel →
      consumeBlockCommentLoop1F src n fuel i = consumeBlockCommentLoop1 src n i := by
  intro fuel
  induction fuel with
  | zero =>
    intro i h
    rw [consumeBlockCommentLoop1]
    rw [consumeBlockCommentLoop1F]
    split
    · omega
    · rfl
  | succ fuel ih =>
    intro i h
    rw [consumeBlockCommentLoop1]
    show (if i < n - 1 then _ else (false, i)) = _
    by_cases hc : i < n - 1
    · rw [if_pos hc, dif_pos hc]
      split
      · exact ih (i + 1) (by omega)
      · split
        · exact ih (i + 1) (by omega)
        · rfl
    · rw [if_neg hc, dif_neg hc]

def consumeBlockCommentLoop2F (src : List Nat) (n : Nat) : Nat → Nat → Bool × Nat
  | 0, i => (false, i)
  | fuel + 1, i =>
    if i < n - 1 then
      if byteAt src i = 42 ∧ byteAt src (i + 1) = 47 then (true, i + 2)
      else consumeBlockCommentLoop2F src n fuel (i + 1)
    else (false, i)

theorem consumeBlockCommentLoop2F_eq (src : List Nat) (n : Nat) :
    ∀ fuel i, n - i ≤ fuel →
      consumeBlockCommentLoop2F src n fuel i = consumeBlockCommentLoop2 src n i := by
  intro fuel
  induction fuel with
  | zero =>
    intro i h
    rw [consumeBlockCommentLoop2]
    rw [consumeBlockCommentLoop2F]
    split
    · omega
    · rfl
  | succ fuel ih =>
    intro i h
    rw [consumeBlockCommentLoop2]
    show (if i < n - 1 then _ else (false, i)) = _
    by_cases hc : i < n - 1
    · rw [if_pos hc, dif_pos hc]
      split
      · rfl
      · exact ih (i + 1) (by omega)
    · rw [if_neg hc, dif_neg hc]

def consumeDollarTagLoopF (src : List Nat) (n : Nat) : Nat → Nat → Option Nat
  | 0, i => some i
  | fuel + 1, i =>
    if i < n then
      if byteAt src i = 36 then some (i + 1)
      else if byteAt src i ≠ 95 ∧ ¬ goIsLetter (byteAt src i) ∧ ¬ goIsDigit (byteAt src i) then
        none
      else consumeDollarTagLoopF src n fuel (i + 1)
    else some i

theorem consumeDollarTagLoopF_eq (src : List Nat) (n : Nat) :
    ∀ fuel i, n - i ≤ fuel →
      consumeDollarTagLoopF src n fuel i = consumeDollarTagLoop src n i := by
  intro fuel
  induction fuel with
  | zero =>
    intro i h
    rw [consumeDollarTagLoop]
    dsimp only
    rw [consumeDollarTagLoopF]
    split
    · omega
    · rfl
  | succ fuel ih =>
    intro i h
    rw [consumeDollarTagLoop]
    dsimp only
    show (if i < n then _ else some i) = _
    by_cases hc : i < n
    · rw [if_pos hc, dif_pos hc]
      split
      · rfl
      · split
        · rfl
        · exact ih (i + 1) (by omega)
    · rw [if_neg hc, dif_neg hc]

def oracleSpacesLoopF (src : List Nat) (n : Nat) : Nat → Nat → Nat
  | 0, i => i
  | fuel + 1, i =>
    if i < n then
      if goIsSpace (byteAt src i) then oracleSpacesLoopF src n fuel (i + 1) else i
    else i

theorem oracleSpacesLoopF_eq (src : List Nat) (n : Nat) :
    ∀ fuel i, n - i ≤ fuel → oracleSpacesLoopF src n fuel i = oracleSpacesLoop src n i := by
  intro fuel
  induction fuel with
  | zero =>
    intro i h
    rw [oracleSpacesLoop]
    rw [oracleSpacesLoopF]
    split
    · omega
    · rfl
  | succ fuel ih =>
    intro i h
    rw [oracleSpacesLoop]
    show (if i < n then _ else i) = _
    by_cases hc : i < n
    · rw [if_pos hc, dif_pos hc]
      split
      · exact ih (i + 1) (by omega)
      · rfl
    · rw [if_neg hc, dif_neg hc]

def oracleBodyLoopF (src : List Nat) (n closeDelim : Nat) : Nat → Nat → Bool × Nat
  | 0, i => (false, i)
  | fuel + 1, i =>
    if i < n then
      if byteAt src i = closeDelim then
        if i + 1 ≥ n then (false, i)
        else if byteAt src (i + 1) ≠ 39 then oracleBodyLoopF src n closeDelim fuel (i + 1)
        else (true, i + 2)
      else oracleBodyLoopF src n closeDelim fuel (i + 1)
    else (false, i)

theorem oracleBodyLoopF_eq (src : List Nat) (n d : Nat) :
    ∀ fuel i, n - i ≤ fuel → oracleBodyLoopF src n d fuel i = oracleBodyLoop src n d i := by
  intro fuel
  induction fuel with
  | zero =>
    intro i h
    rw [oracleBodyLoop]
    rw [oracleBodyLoopF]
    split
    · omega
    · rfl
  | succ fuel ih =>
    intro i h
    rw [oracleBodyLoop]
    show (if i < n then _ else (false, i)) = _
    by_cases hc : i < n
    · rw [if_pos hc, dif_pos hc]
      split
      · split
        · rfl
        · split
          · exact ih (i + 1) (by omega)
          · rfl
      · exact ih (i + 1) (by omega)
    · rw [if_neg hc, dif_neg hc]

def scanIdentEndF (src : List Nat) (n : Nat) : Nat → Nat → Nat
  | 0, j => j
  | fuel + 1, j =>
    if j < n then
      if isValidIdentifierChar (byteAt src j) then scanIdentEndF src n fuel (j + 1) else j
    else j

theorem scanIdentEndF_eq (src : List Nat) (n : Nat) :
    ∀ fuel j, n - j ≤ fuel → scanIdentEndF src n fuel j = scanIdentEnd src n j := by
  intro fuel
  induction fuel with
  | zero =>
    intro j h
    rw [scanIdentEnd]
    rw [scanIdentEndF]
    split
    · omega
    · rfl
  | succ fuel ih =>
    intro j h
    rw [scanIdentEnd]
    show (if j < n then _ else j) = _
    by_cases hc : j < n
    · rw [if_pos hc, dif_pos hc]
      split
      · exact ih (j + 1) (by omega)
      · rfl
    · rw [if_neg hc, dif_neg hc]

def readIdentRestF (s : List Nat) : Nat → Nat → Nat
  | 0, i => i
  | fuel + 1, i =>
    if i < s.length then
      if isLetterDigitOrUnderscore (utf8At s i).1 then
        readIdentRestF s fuel (i + (utf8At s i).2)
      else i
    else i

theorem readIdentRestF_eq (s : List Nat) :
    ∀ fuel i, s.length - i ≤ fuel → readIdentRestF s fuel i = readIdentRest s i := by
  intro fuel
  induction fuel with
  | zero =>
    intro i h
    rw [readIdentRest]
    dsimp only
    rw [readIdentRestF]
    split
    · omega
    · rfl
  | succ fuel ih =>
    intro i h
    rw [readIdentRest]
    dsimp only
    show (if i < s.length then _ else i) = _
    by_cases hc : i < s.length
    · rw [if_pos hc, dif_pos hc]
      have hw := utf8At_width_pos s i
      split
      · exact ih (i + (utf8At s i).2) (by omega)
      · rfl
    · rw [if_neg hc, dif_neg hc]

def readDigitsEndF (s : List Nat) : Nat → Nat → Nat
  | 0, i => i
  | fuel + 1, i =>
    if i < s.length then
      if byteAt s i < 48 ∨ byteAt s i > 57 then i
      else readDigitsEndF s fuel (i + 1)
    else i

theorem readDigitsEndF_eq (s : List Nat) :
    ∀ fuel i, s.length - i ≤ fuel → readDigitsEndF s fuel i = readDigitsEnd s i := by
  intro fuel
  induction fuel with
  | zero =>
    intro i h
    rw [readDigitsEnd]
    rw [readDigitsEndF]
    split
    · omega
    · rfl
  | succ fuel ih =>
    intro i h
    rw [readDigitsEnd]
    show (if i < s.length then _ else i) = _
    by_cases hc : i < s.length
    · rw [if_pos hc, dif_pos hc]
      split
      · rfl
      · exact ih (i + 1) (by omega)
    · rw [if_neg hc, dif_neg hc]

def readIdentF (s : List Nat) (i : Nat) : Option Nat :=
  if i ≥ s.length then none
  else
    if ¬ isLetterOrUnderscore (utf8At s i).1 then none
    else some (readIdentRestF s s.length (i + (utf8At s i).2))

theorem readIdentF_eq (s : List Nat) (i : Nat) : readIdentF s i = readIdent s i := by
  unfold readIdentF readIdent
  dsimp only
  rw [readIdentRestF_eq s s.length (i + (utf8At s i).2) (Nat.sub_le _ _)]

def readDigitsF (s : List Nat) (i : Nat) : Option Nat :=
  if i ≥ s.length then none
  else
    if readDigitsEndF s s.length i = i then none else some (readDigitsEndF s s.length i)

theorem readDigitsF_eq (s : List Nat) (i : Nat) : readDigitsF s i = readDigits s i := by
  unfold readDigitsF readDigits
  dsimp only
  rw [readDigitsEndF_eq s s.length i (Nat.sub_le _ _)]

def isValidNameLoopF (s : List Nat) : Nat → Nat → Bool
  | 0, _ => true
  | fuel + 1, i =>
    if i < s.length then
      if byteAt s i = 46 then
        match readIdentF s (i + 1) with
        | none => false
        | some j => isValidNameLoopF s fuel j
      else if byteAt s i = 91 then
        match readDigitsF s (i + 1) with
        | none => false
        | some j =>
          if j ≥ s.length then false
          else if byteAt s j ≠ 93 then false
          else isValidNameLoopF s fuel (j + 1)
      else false
    else true

theorem isValidNameLoopF_eq (s : List Nat) :
    ∀ fuel i, s.length - i ≤ fuel → isValidNameLoopF s fuel i = isValidNameLoop s i := by
  intro fuel
  induction fuel with
  | zero =>
    intro i h
    rw [isValidNameLoop]
    rw [isValidNameLoopF]
    split
    · omega
    · rfl
  | succ fuel ih =>
    intro i h
    rw [isValidNameLoop]
    show (if i < s.length then _ else true) = _
    by_cases hc : i < s.length
    · rw [if_pos hc, dif_pos hc]
      by_cases h46 : byteAt s i = 46
      · simp only [if_pos h46]
        rw [readIdentF_eq]
        cases hj : readIdent s (i + 1) with
        | none => simp only [hj]
        | some j =>
          simp only [hj]
          exact ih j (by have := readIdent_le s (i + 1) j hj; omega)
      · simp only [if_neg h46]
        by_cases h91 : byteAt s i = 91
        · simp only [if_pos h91]
          rw [readDigitsF_eq]
          cases hj : readDigits s (i + 1) with
          | none => simp only [hj]
          | some j =>
            simp only [hj]
            by_cases hge : j ≥ s.length
            · simp only [if_pos hge]
            · simp only [if_neg hge]
              by_cases h93 : byteAt s j ≠ 93
              · simp only [if_pos h93]
              · simp only [if_neg h93]
                exact ih (j + 1) (by have := readDigits_le s (i + 1) j hj; omega)
        · simp only [if_neg h91]
    · rw [if_neg hc, dif_neg hc]

def isValidNameF (s : List Nat) : Bool :=
  if s = [] then false
  else
    match readIdentF s 0 with
    | none => false
    | some i => isValidNameLoopF s s.length i

theorem isValidNameF_eq (s : List Nat) : isValidNameF s = isValidName s := by
  unfold isValidNameF isValidName
  rw [readIdentF_eq]
  cases hj : readIdent s 0 with
  | none => rfl
  | some i => simp only [isValidNameLoopF_eq s s.length i (Nat.sub_le _ _)]

def consumeSingleQuotedF (s : ParseState) : ParseState :=
  { s with i := consumeSingleQuotedLoopF s.src s.n s.n (s.i + 1) }

theorem consumeSingleQuotedF_eq (s : ParseState) :
    consumeSingleQuotedF s = consumeSingleQuoted s := by
  unfold consumeSingleQuotedF consumeSingleQuoted
  rw [consumeSingleQuotedLoopF_eq s.src s.n s.n (s.i + 1) (Nat.sub_le _ _)]

def consumeDoubleQuotedF (s : ParseState) : ParseState :=
  { s with i := consumeDelimitedLoopF 34 s.src s.n s.n (s.i + 1) }

theorem consumeDoubleQuotedF_eq (s : ParseState) :
    consumeDoubleQuotedF s = consumeDoubleQuoted s := by
  unfold consumeDoubleQuotedF consumeDoubleQuoted
  rw [consumeDelimitedLoopF_eq 34 s.src s.n s.n (s.i + 1) (Nat.sub_le _ _)]

def consumeBacktickF (s : ParseState) : ParseState :=
  { s with i := consumeDelimitedLoopF 96 s.src s.n s.n (s.i + 1) }

theorem consumeBacktickF_eq (s : ParseState) :
    consumeBacktickF s = consumeBacktick s := by
  unfold consumeBacktickF consumeBacktick
  rw [consumeDelimitedLoopF_eq 96 s.src s.n s.n (s.i + 1) (Nat.sub_le _ _)]

def consumeBracketIdentF (s : ParseState) : ParseState :=
  { s with i := consumeDelimitedLoopF 93 s.src s.n s.n (s.i + 1) }

theorem consumeBracketIdentF_eq (s : ParseState) :
    consumeBracketIdentF s = consumeBracketIdent s := by
  unfold consumeBracketIdentF consumeBracketIdent
  rw [consumeDelimitedLoopF_eq 93 s.src s.n s.n (s.i + 1) (Nat.sub_le _ _)]

def consumeDashDashF (s : ParseState) : ParseState :=
  { s with i := consumeToNewlineF s.src s.n s.n s.i }

theorem consumeDashDashF_eq (s : ParseState) : consumeDashDashF s = consumeDashDash s := by
  unfold consumeDashDashF consumeDashDash
  rw [consumeToNewlineF_eq s.src s.n s.n s.i (Nat.sub_le _ _)]

def consumeHashCommentF (s : ParseState) : ParseState :=
  { s with i := consumeToNewlineF s.src s.n s.n (s.i + 1) }

theorem consumeHashCommentF_eq (s : ParseState) :
    consumeHashCommentF s = consumeHashComment s := by
  unfold consumeHashCommentF consumeHashComment
  rw [consumeToNewlineF_eq s.src s.n s.n (s.i + 1) (Nat.sub_le _ _)]

def consumeBlockCommentF (s : ParseState) : ParseState :=
  let r1 := consumeBlockCommentLoop1F s.src s.n s.n (s.i + 2)
  if r1.1 then { s with i := r1.2 }
  else
    let r2 := consumeBlockCommentLoop2F s.src s.n s.n r1.2
    if r2.1 then { s with i := r2.2 }
    else { s with i := s.n }

theorem consumeBlockCommentF_eq (s : ParseState) :
    consumeBlockCommentF s = consumeBlockComment s := by
  unfold consumeBlockCommentF consumeBlockComment
  dsimp only
  rw [consumeBlockCommentLoop1F_eq s.src s.n s.n (s.i + 2) (Nat.sub_le _ _)]
  rw [consumeBlockCommentLoop2F_eq s.src s.n s.n
    (consumeBlockCommentLoop1 s.src s.n (s.i + 2)).2 (Nat.sub_le _ _)]

def consumeDollarQuotedF (s : ParseState) : ParseState :=
  let start := s.i
  match consumeDollarTagLoopF s.src s.n s.n (s.i + 1) with
  | none => { s with i := start + 1 }
  | some i1 =>
    if i1 > s.n then { s with i := s.n }
    else
      let tag := goSlice s.src start i1
      match indexOfFrom (s.src.drop i1) tag with
      | none => { s with i := s.n }
      | some idx => { s with i := i1 + idx + tag.length }

theorem consumeDollarQuotedF_eq (s : ParseState) :
    consumeDollarQuotedF s = consumeDollarQuoted s := by
  unfold consumeDollarQuotedF consumeDollarQuoted
  rw [consumeDollarTagLoopF_eq s.src s.n s.n (s.i + 1) (Nat.sub_le _ _)]

def consumeOracleQF (s : ParseState) : ParseState :=
  let start := s.i
  if start + 1 ≥ s.n then { s with i := start + 1 }
  else if byteAt s.src (start + 1) ≠ 39 ∧ byteAt s.src (start + 1) ≠ 32 then
    { s with i := start + 1 }
  else
    let i1 := oracleSpacesLoopF s.src s.n s.n (start + 1)
    if i1 ≥ s.n ∨ byteAt s.src i1 ≠ 39 then { s with i := start + 1 }
    else if i1 + 1 ≥ s.n then { s with i := s.n }
    else
      let delim := byteAt s.src (i1 + 1)
      let closeDelim :=
        if delim = 60 then 62
        else if delim = 40 then 41
        else if delim = 91 then 93
        else if delim = 123 then 125
        else delim
      match oracleBodyLoopF s.src s.n closeDelim s.n (i1 + 2) with
      | (true, j) => { s with i := j }
      | (false, _) => { s with i := s.n }

theorem consumeOracleQF_eq (s : ParseState) : consumeOracleQF s = consumeOracleQ s := by
  unfold consumeOracleQF consumeOracleQ
  dsimp only
  rw [oracleSpacesLoopF_eq s.src s.n s.n (s.i + 1) (Nat.sub_le _ _)]
  rw [oracleBodyLoopF_eq s.src s.n _ s.n
    (oracleSpacesLoop s.src s.n (s.i + 1) + 2) (Nat.sub_le _ _)]

def consumePlaceholderF (formatFunc : Nat → List Nat) (s : ParseState) :
    Except ParseError ParseState :=
  let start := s.i
  let i1 := s.i + 1
  if i1 ≥ s.n ∨ ¬ isValidIdentifierStart (byteAt s.src i1) then
    Except.ok { s with i := i1 }
  else
    let j := scanIdentEndF s.src s.n s.n i1
    let rawName := goSlice s.src i1 j
    if ¬ isValidNameF rawName then
      Except.error (ParseError.invalidPlaceholderName rawName start)
    else
      let p := getIndex s rawName
      Except.ok { p.2 with
        tokens := p.2.tokens ++ [⟨rawName, p.1, start, j, goSlice s.src start j⟩],
        edits := p.2.edits ++ [⟨start, j, formatFunc p.1⟩],
        i := j }

theorem consumePlaceholderF_eq (f : Nat → List Nat) (s : ParseState) :
    consumePlaceholderF f s = consumePlaceholder f s := by
  unfold consumePlaceholderF consumePlaceholder
  dsimp only
  rw [scanIdentEndF_eq s.src s.n s.n (s.i + 1) (Nat.sub_le _ _)]
  rw [isValidNameF_eq]

def scanStepF (formatFunc : Nat → List Nat) (s : ParseState) :
    Except ParseError ParseState :=
  if byteAt s.src s.i = 45 then
    if s.peek 1 = 45 then Except.ok (consumeDashDashF { s with i := s.i + 2 })
    else Except.ok { s with i := s.i + 1 }
  else if byteAt s.src s.i = 35 then Except.ok (consumeHashCommentF s)
  else if byteAt s.src s.i = 47 then
    if s.peek 1 = 42 then Except.ok (consumeBlockCommentF s)
    else Except.ok { s with i := s.i + 1 }
  else if byteAt s.src s.i = 39 then Except.ok (consumeSingleQuotedF s)
  else if byteAt s.src s.i = 34 then Except.ok (consumeDoubleQuotedF s)
  else if byteAt s.src s.i = 96 then Except.ok (consumeBacktickF s)
  else if byteAt s.src s.i = 91 then Except.ok (consumeBracketIdentF s)
  else if byteAt s.src s.i = 36 then Except.ok (consumeDollarQuotedF s)
  else if byteAt s.src s.i = 113 ∨ byteAt s.src s.i = 81 then Except.ok (consumeOracleQF s)
  else if byteAt s.src s.i = 58 then
    if s.peek 1 = 58 then Except.ok { s with i := s.i + 2 }
    else if s.i + 1 < s.n ∧ isValidIdentifierStart (byteAt s.src (s.i + 1)) then
      consumePlaceholderF formatFunc s
    else Except.ok { s with i := s.i + 1 }
  else Except.ok { s with i := s.i + 1 }

theorem scanStepF_eq (f : Nat → List Nat) (s : ParseState) :
    scanStepF f s = scanStep f s := by
  unfold scanStepF scanStep
  rw [consumeDashDashF_eq, consumeHashCommentF_eq, consumeBlockCommentF_eq,
    consumeSingleQuotedF_eq, consumeDoubleQuotedF_eq, consumeBacktickF_eq,
    consumeBracketIdentF_eq, consumeDollarQuotedF_eq, consumeOracleQF_eq,
    consumePlaceholderF_eq]

def scanLoopF (formatFunc : Nat → List Nat) : Nat → ParseState → Except ParseError ParseState
  | 0, s => Except.ok s
  | fuel + 1, s =>
    if s.i < s.n then
      match scanStepF formatFunc s with
      | Except.error e => Except.error e
      | Except.ok s' => scanLoopF formatFunc fuel s'
    else Except.ok s

theorem scanLoopF_eq (f : Nat → List Nat) :
    ∀ fuel s, s.n - s.i ≤ fuel → scanLoopF f fuel s = scanLoop f s := by
  intro fuel
  induction fuel with
  | zero =>
    intro s h
    rw [scanLoop]
    rw [scanLoopF]
    split
    · omega
    · rfl
  | succ fuel ih =>
    intro s h
    rw [scanLoop]
    show (if s.i < s.n then _ else Except.ok s) = _
    by_cases hc : s.i < s.n
    · rw [if_pos hc, dif_pos hc]
      rw [scanStepF_eq]
      cases hstep : scanStep f s with
      | error e => rfl
      | ok s' =>
        have hs := scanStep_ok_spec f s s' hc hstep
        exact ih s' (by omega)
    · rw [if_neg hc, dif_neg hc]

/-- Computable route to source `ParseSQL`: same nil check, the fuelled scan
loop with fuel equal to the input length, and the same result assembly;
proved equal to `ParseSQL` below. -/
def ParseSQLF (sqlText : List Nat) (formatFunc : Option (Nat → List Nat)) :
    Except ParseError ParsedSQL :=
  match formatFunc with
  | none => Except.error ParseError.formatParamFuncRequired
  | some f =>
    match scanLoopF f sqlText.length (newParseState sqlText) with
    | Except.error e => Except.error e
    | Except.ok st => Except.ok (finishParse st)

theorem ParseSQL_eq_F (sqlText : List Nat) (formatFunc : Option (Nat → List Nat)) :
    ParseSQL sqlText formatFunc = ParseSQLF sqlText formatFunc := by
  unfold ParseSQL ParseSQLF
  cases formatFunc with
  | none => rfl
  | some f =>
    dsimp only
    rw [scanLoopF_eq f sqlText.length (newParseState sqlText) (by simp [newParseState])]

/-- Position of the first occurrence of `nm` in a name list. -/
def posOf : List (List Nat) → List Nat → Option Nat
  | [], _ => none
  | x :: xs, nm => if x = nm then some 0 else (posOf xs nm).map (· + 1)

theorem posOf_eq_none_iff (l : List (List Nat)) (nm : List Nat) :
    posOf l nm = none ↔ nm ∉ l := by
  induction l with
  | nil => simp [posOf]
  | cons x xs ih =>
    by_cases hx : x = nm
    · simp [posOf, hx]
    · simp only [posOf, if_neg hx, Option.map_eq_none', ih, List.mem_cons]
      constructor
      · intro hn hmem
        rcases hmem with hmem | hmem
        · exact hx hmem.symm
        · exact hn hmem
      · intro hn
        exact fun hmem => hn (Or.inr hmem)

theorem posOf_some_mem (l : List (List Nat)) (nm : List Nat) (k : Nat)
    (h : posOf l nm = some k) : nm ∈ l := by
  by_cases hmem : nm ∈ l
  · exact hmem
  · rw [(posOf_eq_none_iff l nm).mpr hmem] at h
    exact absurd h (by simp)

theorem posOf_get (l : List (List Nat)) (nm : List Nat) (k : Nat)
    (h : posOf l nm = some k) : l.get? k = some nm := by
  induction l generalizing k with
  | nil => exact absurd h (by simp [posOf])
  | cons x xs ih =>
    by_cases hx : x = nm
    · simp only [posOf, if_pos hx, Option.some.injEq] at h
      subst h
      simp [hx]
    · simp only [posOf, if_neg hx, Option.map_eq_some'] at h
      obtain ⟨k', hk', rfl⟩ := h
      simpa using ih k' hk'


theorem posOf_append_sing (l : List (List Nat)) (x nm : List Nat) :
    posOf (l ++ [x]) nm =
      match posOf l nm with
      | some k => some k
      | none => if nm = x then some l.length else none := by
  induction l with
  | nil =>
    by_cases hx : nm = x
    · subst hx
      simp [posOf]
    · have hx' : ¬ x = nm := fun h => hx h.symm
      simp [posOf, hx, hx']
  | cons y ys ih =>
    by_cases hy : y = nm
    · simp [posOf, hy]
    · rw [List.cons_append, posOf, if_neg hy, ih, posOf, if_neg hy]
      cases hp : posOf ys nm with
      | some k => simp
      | none =>
        by_cases hnx : nm = x
        · simp [hnx]
        · simp [hnx]

/-- First-occurrence deduplication of a name list relative to already-seen
names; `dedupFirst [] names` is the registry insertion order produced by
scanning `names` left to right. -/
def dedupFirst (seen : List (List Nat)) : List (List Nat) → List (List Nat)
  | [] => []
  | x :: xs => if x ∈ seen then dedupFirst seen xs else x :: dedupFirst (x :: seen) xs

theorem mem_dedupFirst (l : List (List Nat)) :
    ∀ seen nm, nm ∈ dedupFirst seen l ↔ (nm ∈ l ∧ nm ∉ seen) := by
  induction l with
  | nil => simp [dedupFirst]
  | cons x xs ih =>
    intro seen nm
    by_cases hx : x ∈ seen
    · rw [dedupFirst, if_pos hx, ih]
      constructor
      · exact fun hp => ⟨List.mem_cons_of_mem x hp.1, hp.2⟩
      · rintro ⟨h1, h2⟩
        rcases List.mem_cons.mp h1 with rfl | h1
        · exact absurd hx h2
        · exact ⟨h1, h2⟩
    · rw [dedupFirst, if_neg hx]
      by_cases hnm : nm = x
      · subst hnm
        simp [hx]
      · rw [List.mem_cons, List.mem_cons]
        have hns : (nm ∈ x :: seen) ↔ nm ∈ seen := by
          rw [List.mem_cons]
          exact ⟨fun hc => hc.elim (fun he => absurd he hnm) id, Or.inr⟩
        constructor
        · intro hp
          rcases hp with hp | hp
          · exact absurd hp hnm
          · have := (ih (x :: seen) nm).mp hp
            exact ⟨Or.inr this.1, fun hs => this.2 (hns.mpr hs)⟩
        · rintro ⟨h1, h2⟩
          rcases h1 with rfl | h1
          · exact absurd rfl hnm
          · exact Or.inr ((ih (x :: seen) nm).mpr ⟨h1, fun hs => h2 (hns.mp hs)⟩)

theorem dedupFirst_append_sing (l : List (List Nat)) :
    ∀ seen x, dedupFirst seen (l ++ [x]) =
      if x ∈ seen ∨ x ∈ l then dedupFirst seen l
      else dedupFirst seen l ++ [x] := by
  induction l with
  | nil =>
    intro seen x
    by_cases hx : x ∈ seen
    · simp [dedupFirst, hx]
    · simp [dedupFirst, hx]
  | cons y ys ih =>
    intro seen x
    by_cases hy : y ∈ seen
    · rw [List.cons_append, dedupFirst, if_pos hy, dedupFirst, if_pos hy, ih]
      by_cases hxs : x ∈ seen ∨ x ∈ ys
      · rw [if_pos hxs, if_pos]
        rcases hxs with hxs | hxs
        · exact Or.inl hxs
        · exact Or.inr (List.mem_cons_of_mem y hxs)
      · rw [if_neg hxs, if_neg]
        intro hc
        rcases hc with hc | hc
        · exact hxs (Or.inl hc)
        · rcases List.mem_cons.mp hc with rfl | hc
          · exact hxs (Or.inl hy)
          · exact hxs (Or.inr hc)
    · rw [List.cons_append, dedupFirst, if_neg hy, dedupFirst, if_neg hy, ih]
      by_cases hxs : x ∈ y :: seen ∨ x ∈ ys
      · rw [if_pos hxs, if_pos]
        · rcases hxs with hxs | hxs
          · rcases List.mem_cons.mp hxs with rfl | hxs
            · exact Or.inr (List.mem_cons_self _ _)
            · exact Or.inl hxs
          · exact Or.inr (List.mem_cons_of_mem y hxs)
      · rw [if_neg hxs, if_neg]
        · simp
        · intro hc
          rcases hc with hc | hc
          · exact hxs (Or.inl (List.mem_cons_of_mem y hc))
          · rcases List.mem_cons.mp hc with rfl | hc
            · exact hxs (Or.inl (List.mem_cons_self _ _))
            · exact hxs (Or.inr hc)

/-- Edit spans chained left to right: each span starts no earlier than `lo`,
is non-empty, and the chain ends no later than `hi`. -/
def ChainBelow : Nat → Nat → List EditState → Prop
  | lo, hi, [] => lo ≤ hi
  | lo, hi, e :: rest => lo ≤ e.start ∧ e.start < e.stop ∧ ChainBelow e.stop hi rest

theorem chainBelow_lo_le (es : List EditState) :
    ∀ lo hi, ChainBelow lo hi es → lo ≤ hi := by
  induction es with
  | nil => intro lo hi h; exact h
  | cons e rest ih =>
    intro lo hi h
    have h1 : lo ≤ e.start := h.1
    have h2 : e.start < e.stop := h.2.1
    have h3 := ih e.stop hi h.2.2
    omega

theorem chainBelow_mono (es : List EditState) :
    ∀ lo hi hi', ChainBelow lo hi es → hi ≤ hi' → ChainBelow lo hi' es := by
  induction es with
  | nil => intro lo hi hi' h hle; exact Nat.le_trans h hle
  | cons e rest ih =>
    intro lo hi hi' h hle
    exact ⟨h.1, h.2.1, ih e.stop hi hi' h.2.2 hle⟩

theorem chainBelow_append_sing (es : List EditState) :
    ∀ lo hi a b r, ChainBelow lo hi es → hi ≤ a → a < b →
      ChainBelow lo b (es ++ [{ start := a, stop := b, repl := r }]) := by
  induction es with
  | nil =>
    intro lo hi a b r h ha hb
    have h' : lo ≤ hi := h
    exact ⟨show lo ≤ a by omega, show a < b from hb, show b ≤ b from Nat.le_refl b⟩
  | cons e rest ih =>
    intro lo hi a b r h ha hb
    exact ⟨h.1, h.2.1, ih e.stop hi a b r h.2.2 ha hb⟩

theorem chainBelow_elem (es : List EditState) :
    ∀ lo hi e, ChainBelow lo hi es → e ∈ es →
      lo ≤ e.start ∧ e.start < e.stop ∧ e.stop ≤ hi := by
  induction es with
  | nil => intro lo hi e _ hmem; exact absurd hmem (by simp)
  | cons e0 rest ih =>
    intro lo hi e h hmem
    rcases List.mem_cons.mp hmem with rfl | hmem
    · exact ⟨h.1, h.2.1, chainBelow_lo_le rest e.stop hi h.2.2⟩
    · have hrec := ih e0.stop hi e h.2.2 hmem
      have h1 : lo ≤ e0.start := h.1
      have h2 : e0.start < e0.stop := h.2.1
      exact ⟨by omega, hrec.2.1, hrec.2.2⟩

/-- Invariant of the scan state: the cached length, the cursor bound, the
token/edit correspondence, the registry contents (order, index map), and the
left-to-right chain of edit spans below the cursor. -/
structure ScanInv (fmt : Nat → List Nat) (st : ParseState) : Prop where
  hn : st.n = st.src.length
  hle : st.i ≤ st.n
  hmap : st.edits = st.tokens.map
    (fun t => { start := t.Start, stop := t.End, repl := fmt t.Index })
  horder : st.order = dedupFirst [] (st.tokens.map QueryToken.Name)
  hidx : ∀ nm, lookupIndex st.indexOf nm = (posOf st.order nm).map (· + 1)
  htok : ∀ t ∈ st.tokens, 1 ≤ t.Index ∧ posOf st.order t.Name = some (t.Index - 1)
  hcover : ∀ k, k < st.order.length → ∃ t ∈ st.tokens, t.Index = k + 1
  hchain : ChainBelow 0 st.i st.edits

theorem scanInv_init (fmt : Nat → List Nat) (src : List Nat) :
    ScanInv fmt (newParseState src) := by
  refine ⟨rfl, by simp [newParseState], rfl, rfl, fun nm => rfl, ?_, ?_, ?_⟩
  · intro t ht
    exact absurd ht (by simp [newParseState])
  · intro k hk
    exact absurd hk (by simp [newParseState, dedupFirst])
  · exact Nat.le_refl 0

theorem onlyAdvances_trans {s t u : ParseState}
    (h1 : OnlyAdvances s t) (h2 : OnlyAdvances t u) : OnlyAdvances s u :=
  ⟨h2.1.trans h1.1, h2.2.1.trans h1.2.1, h2.2.2.1.trans h1.2.2.1,
    h2.2.2.2.1.trans h1.2.2.2.1, h2.2.2.2.2.1.trans h1.2.2.2.2.1,
    h2.2.2.2.2.2.trans h1.2.2.2.2.2⟩

theorem scanInv_of_onlyAdvances (fmt : Nat → List Nat) {s t : ParseState}
    (hinv : ScanInv fmt s) (ha : OnlyAdvances s t) (hi : s.i ≤ t.i) (hb : t.i ≤ t.n) :
    ScanInv fmt t := by
  obtain ⟨h1, h2, h3, h4, h5, h6⟩ := ha
  refine ⟨?_, hb, ?_, ?_, ?_, ?_, ?_, ?_⟩
  · rw [h1, h2, hinv.hn]
  · rw [h3, h6, hinv.hmap]
  · rw [h4, h6, hinv.horder]
  · intro nm
    rw [h5, h4, hinv.hidx nm]
  · intro t' ht'
    rw [h6] at ht'
    rw [h4]
    exact hinv.htok t' ht'
  · intro k hk
    rw [h4] at hk
    rw [h6]
    exact hinv.hcover k hk
  · rw [h3]
    exact chainBelow_mono s.edits 0 s.i t.i hinv.hchain hi

theorem consumeDashDash_onlyAdvances (s : ParseState) :
    OnlyAdvances s (consumeDashDash s) := by
  unfold consumeDashDash
  exact onlyAdvances_set_i s _

theorem scanStep_ok_cases (f : Nat → List Nat) (s s' : ParseState)
    (h : scanStep f s = Except.ok s') :
    OnlyAdvances s s' ∨
      (byteAt s.src s.i = 58 ∧ s.peek 1 ≠ 58 ∧ consumePlaceholder f s = Except.ok s') := by
  rw [scanStep] at h
  by_cases h45 : byteAt s.src s.i = 45
  · rw [if_pos h45] at h
    by_cases hp : s.peek 1 = 45
    · rw [if_pos hp] at h
      simp only [Except.ok.injEq] at h
      subst h
      exact Or.inl (onlyAdvances_trans (onlyAdvances_set_i s _)
        (consumeDashDash_onlyAdvances _))
    · rw [if_neg hp] at h
      simp only [Except.ok.injEq] at h
      subst h
      exact Or.inl (onlyAdvances_set_i s _)
  · rw [if_neg h45] at h
    by_cases h35 : byteAt s.src s.i = 35
    · rw [if_pos h35] at h
      simp only [Except.ok.injEq] at h
      subst h
      exact Or.inl (consumeHashComment_spec s).1
    · rw [if_neg h35] at h
      by_cases h47 : byteAt s.src s.i = 47
      · rw [if_pos h47] at h
        by_cases hp : s.peek 1 = 42
        · rw [if_pos hp] at h
          simp only [Except.ok.injEq] at h
          subst h
          exact Or.inl (consumeBlockComment_spec s).1
        · rw [if_neg hp] at h
          simp only [Except.ok.injEq] at h
          subst h
          exact Or.inl (onlyAdvances_set_i s _)
      · rw [if_neg h47] at h
        by_cases h39 : byteAt s.src s.i = 39
        · rw [if_pos h39] at h
          simp only [Except.ok.injEq] at h
          subst h
          exact Or.inl (consumeSingleQuoted_spec s).1
        · rw [if_neg h39] at h
          by_cases h34 : byteAt s.src s.i = 34
          · rw [if_pos h34] at h
            simp only [Except.ok.injEq] at h
            subst h
            exact Or.inl (consumeDoubleQuoted_spec s).1
          · rw [if_neg h34] at h
            by_cases h96 : byteAt s.src s.i = 96
            · rw [if_pos h96] at h
              simp only [Except.ok.injEq] at h
              subst h
              exact Or.inl (consumeBacktick_spec s).1
            · rw [if_neg h96] at h
              by_cases h91 : byteAt s.src s.i = 91
              · rw [if_pos h91] at h
                simp only [Except.ok.injEq] at h
                subst h
                exact Or.inl (consumeBracketIdent_spec s).1
              · rw [if_neg h91] at h
                by_cases h36 : byteAt s.src s.i = 36
                · rw [if_pos h36] at h
                  simp only [Except.ok.injEq] at h
                  subst h
                  exact Or.inl (consumeDollarQuoted_spec s).1
                · rw [if_neg h36] at h
                  by_cases hq : byteAt s.src s.i = 113 ∨ byteAt s.src s.i = 81
                  · rw [if_pos hq] at h
                    simp only [Except.ok.injEq] at h
                    subst h
                    exact Or.inl (consumeOracleQ_spec s).1
                  · rw [if_neg hq] at h
                    by_cases h58 : byteAt s.src s.i = 58
                    · rw [if_pos h58] at h
                      by_cases hp : s.peek 1 = 58
                      · rw [if_pos hp] at h
                        simp only [Except.ok.injEq] at h
                        subst h
                        exact Or.inl (onlyAdvances_set_i s _)
                      · rw [if_neg hp] at h
                        by_cases hv : s.i + 1 < s.n ∧
                            isValidIdentifierStart (byteAt s.src (s.i + 1)) = true
                        · rw [if_pos hv] at h
                          exact Or.inr ⟨h58, hp, h⟩
                        · rw [if_neg hv] at h
                          simp only [Except.ok.injEq] at h
                          subst h
                          exact Or.inl (onlyAdvances_set_i s _)
                    · rw [if_neg h58] at h
                      simp only [Except.ok.injEq] at h
                      subst h
                      exact Or.inl (onlyAdvances_set_i s _)

theorem consumePlaceholder_inv (f : Nat → List Nat) (s s' : ParseState)
    (hinv : ScanInv f s) (hlt : s.i < s.n)
    (h : consumePlaceholder f s = Except.ok s') :
    ScanInv f s' ∧ s'.src = s.src ∧ s'.n = s.n ∧ s.i < s'.i ∧
      (s'.tokens = s.tokens ∨
        ∃ t, s'.tokens = s.tokens ++ [t] ∧ t.Start = s.i ∧ t.End = s'.i) := by
  unfold consumePlaceholder at h
  dsimp only at h
  split at h
  · simp only [Except.ok.injEq] at h
    subst h
    exact ⟨scanInv_of_onlyAdvances f hinv (onlyAdvances_set_i s _)
        (by dsimp only; omega) (by dsimp only; omega),
      rfl, rfl, by dsimp only; omega, Or.inl rfl⟩
  · split at h
    · exact absurd h (by simp)
    · simp only [Except.ok.injEq] at h
      subst h
      have hj1 : s.i + 1 ≤ scanIdentEnd s.src s.n (s.i + 1) :=
        scanIdentEnd_le s.src s.n (s.i + 1)
      have hjn : scanIdentEnd s.src s.n (s.i + 1) ≤ s.n :=
        scanIdentEnd_bound s.src s.n (s.i + 1) (by omega)
      set j := scanIdentEnd s.src s.n (s.i + 1) with hjdef
      set nm := goSlice s.src (s.i + 1) j with hnmdef
      cases hgi : lookupIndex s.indexOf nm with
      | some idx =>
        obtain ⟨k, hk, hki⟩ : ∃ k, posOf s.order nm = some k ∧ idx = k + 1 := by
          have he := hinv.hidx nm
          rw [hgi] at he
          cases hp : posOf s.order nm with
          | none => rw [hp] at he; exact absurd he (by simp)
          | some k =>
            rw [hp] at he
            simp only [Option.map_some', Option.some.injEq] at he
            exact ⟨k, rfl, he⟩
        have hgie : getIndex s nm = (idx, s) := by unfold getIndex; rw [hgi]
        rw [hgie]
        dsimp only
        refine ⟨?_, rfl, rfl, by omega, Or.inr ⟨_, rfl, rfl, rfl⟩⟩
        refine ⟨hinv.hn, hjn, ?_, ?_, hinv.hidx, ?_, ?_, ?_⟩
        · dsimp only
          rw [List.map_append, hinv.hmap]
          rfl
        · dsimp only
          rw [List.map_append]
          simp only [List.map_cons, List.map_nil]
          rw [dedupFirst_append_sing]
          rw [if_pos]
          · exact hinv.horder
          · refine Or.inr ?_
            have hmo : nm ∈ s.order := posOf_some_mem _ _ _ hk
            rw [hinv.horder] at hmo
            exact ((mem_dedupFirst _ _ _).mp hmo).1
        · intro t ht
          dsimp only at ht
          rcases List.mem_append.mp ht with ht | ht
          · exact hinv.htok t ht
          · simp only [List.mem_singleton] at ht
            subst ht
            refine ⟨by dsimp only; omega, ?_⟩
            dsimp only
            rw [hk]
            congr 1
            omega
        · intro k' hk'
          dsimp only at hk' ⊢
          obtain ⟨t, ht, hti⟩ := hinv.hcover k' hk'
          exact ⟨t, List.mem_append_left _ ht, hti⟩
        · dsimp only
          exact chainBelow_append_sing s.edits 0 s.i s.i j (f idx) hinv.hchain
            (Nat.le_refl s.i) (by omega)
      | none =>
        have hnotmem : nm ∉ s.order := by
          have he := hinv.hidx nm
          rw [hgi] at he
          cases hp : posOf s.order nm with
          | some k => rw [hp] at he; exact absurd he (by simp)
          | none => exact (posOf_eq_none_iff _ _).mp hp
        have hposnone : posOf s.order nm = none := (posOf_eq_none_iff _ _).mpr hnotmem
        have hgie : getIndex s nm = (s.order.length + 1,
            { s with order := s.order ++ [nm],
                     indexOf := (nm, s.order.length + 1) :: s.indexOf }) := by
          unfold getIndex
          rw [hgi]
          simp
        rw [hgie]
        dsimp only
        refine ⟨?_, rfl, rfl, by omega, Or.inr ⟨_, rfl, rfl, rfl⟩⟩
        refine ⟨hinv.hn, hjn, ?_, ?_, ?_, ?_, ?_, ?_⟩
        · dsimp only
          rw [List.map_append, hinv.hmap]
          rfl
        · dsimp only
          rw [List.map_append]
          simp only [List.map_cons, List.map_nil]
          rw [dedupFirst_append_sing]
          rw [if_neg]
          · rw [← hinv.horder]
          · rintro (hc | hc)
            · exact absurd hc (by simp)
            · apply hnotmem
              rw [hinv.horder]
              exact (mem_dedupFirst _ _ _).mpr ⟨hc, by simp⟩
        · intro nm'
          dsimp only
          rw [posOf_append_sing]
          show (if nm = nm' then some (s.order.length + 1)
            else lookupIndex s.indexOf nm') = _
          by_cases hq : nm = nm'
          · subst hq
            rw [if_pos rfl, hposnone]
            simp
          · rw [if_neg hq, hinv.hidx nm']
            cases hp : posOf s.order nm' with
            | some k => simp
            | none =>
              have hq' : ¬ nm' = nm := fun hh => hq hh.symm
              simp [hq']
        · intro t ht
          dsimp only at ht ⊢
          rcases List.mem_append.mp ht with ht | ht
          · obtain ⟨h1, h2⟩ := hinv.htok t ht
            refine ⟨h1, ?_⟩
            rw [posOf_append_sing, h2]
          · simp only [List.mem_singleton] at ht
            subst ht
            refine ⟨by dsimp only; omega, ?_⟩
            dsimp only
            rw [posOf_append_sing, hposnone]
            simp
        · intro k hk
          dsimp only at hk ⊢
          rw [List.length_append] at hk
          simp only [List.length_singleton] at hk
          by_cases hkl : k < s.order.length
          · obtain ⟨t, ht, hti⟩ := hinv.hcover k hkl
            exact ⟨t, List.mem_append_left _ ht, hti⟩
          · have hke : k = s.order.length := by omega
            subst hke
            refine ⟨_, List.mem_append_right _ (List.mem_singleton_self _), rfl⟩
        · dsimp only
          exact chainBelow_append_sing s.edits 0 s.i s.i j
            (f (s.order.length + 1)) hinv.hchain (Nat.le_refl s.i) (by omega)

theorem scanStep_inv (f : Nat → List Nat) (s s' : ParseState)
    (hlt : s.i < s.n) (hinv : ScanInv f s) (h : scanStep f s = Except.ok s') :
    ScanInv f s' ∧ s'.src = s.src ∧ s'.n = s.n ∧ s.i < s'.i ∧
      (s'.tokens = s.tokens ∨
        ∃ t, s'.tokens = s.tokens ++ [t] ∧ t.Start = s.i ∧ t.End = s'.i) := by
  obtain ⟨e1, e2, e3, e4⟩ := scanStep_ok_spec f s s' hlt h
  rcases scanStep_ok_cases f s s' h with ha | ⟨_, _, hcp⟩
  · refine ⟨scanInv_of_onlyAdvances f hinv ha (by omega) ?_, e1, e2, e3, Or.inl ha.2.2.2.2.2⟩
    rw [e2]
    exact e4 hinv.hn
  · exact consumePlaceholder_inv f s s' hinv hlt hcp

theorem scanLoop_inv (f : Nat → List Nat) (s stf : ParseState)
    (hrun : scanLoop f s = Except.ok stf) (hinv : ScanInv f s) :
    ScanInv f stf ∧ stf.src = s.src ∧ stf.n = s.n ∧ s.i ≤ stf.i ∧ stf.n ≤ stf.i ∧
      ∃ nts, stf.tokens = s.tokens ++ nts ∧ ∀ t ∈ nts, s.i ≤ t.Start := by
  rw [scanLoop] at hrun
  split at hrun
  · rename_i hlt
    split at hrun
    · exact absurd hrun (by simp)
    · rename_i s1 heq
      obtain ⟨i1, i2, i3, i4, i5⟩ := scanStep_inv f s s1 hlt hinv heq
      obtain ⟨r1, r2, r3, r4, r5, nts, rt, rs⟩ := scanLoop_inv f s1 stf hrun i1
      refine ⟨r1, r2.trans i2, r3.trans i3, by omega, r5, ?_⟩
      rcases i5 with i5 | ⟨t0, ht0, hs0, _⟩
      · refine ⟨nts, by rw [rt, i5], fun t ht => ?_⟩
        have := rs t ht
        omega
      · refine ⟨t0 :: nts, by rw [rt, ht0, List.append_assoc]; rfl, fun t ht => ?_⟩
        rcases List.mem_cons.mp ht with rfl | ht
        · omega
        · have := rs t ht
          omega
  · rename_i hge
    simp only [Except.ok.injEq] at hrun
    subst hrun
    exact ⟨hinv, rfl, rfl, Nat.le_refl _, by omega, [], by simp, by simp⟩
termination_by s.n - s.i
decreasing_by omega

/-- Recursive form of the `buildSQL` loop: gap before the edit, replacement
text, then the rest; the tail of the source after the last edit closes it. -/
def buildSQLAux (src : List Nat) : Nat → List EditState → List Nat
  | last, [] => if last < src.length then goSlice src last src.length else []
  | last, e :: rest =>
      (if e.start > last then goSlice src last e.start else []) ++ e.repl ++
        buildSQLAux src e.stop rest

theorem buildSQLLoop_eq_aux (src : List Nat) :
    ∀ es b last, buildSQLLoop src es b last = b ++ buildSQLAux src last es := by
  intro es
  induction es with
  | nil =>
    intro b last
    rw [buildSQLLoop, buildSQLAux]
    split
    · rfl
    · simp
  | cons e rest ih =>
    intro b last
    rw [buildSQLLoop, buildSQLAux, ih]
    by_cases hg : e.start > last
    · rw [if_pos hg, if_pos hg]
      simp [List.append_assoc]
    · rw [if_neg hg, if_neg hg]
      simp [List.append_assoc]

theorem buildSQL_eq_aux (s : ParseState) : buildSQL s = buildSQLAux s.src 0 s.edits := by
  unfold buildSQL
  rw [buildSQLLoop_eq_aux]
  simp

/-- Containment of a byte segment in a byte string. -/
def OccursIn (part whole : List Nat) : Prop :=
  ∃ pre post, whole = pre ++ part ++ post

theorem occursIn_nil (w : List Nat) : OccursIn [] w :=
  ⟨[], w, by simp⟩

theorem occursIn_append_right (x : List Nat) {p w : List Nat}
    (h : OccursIn p w) : OccursIn p (x ++ w) := by
  obtain ⟨pre, post, rfl⟩ := h
  exact ⟨x ++ pre, post, by simp⟩

theorem occursIn_append_left (x : List Nat) {p w : List Nat}
    (h : OccursIn p w) : OccursIn p (w ++ x) := by
  obtain ⟨pre, post, rfl⟩ := h
  exact ⟨pre, post ++ x, by simp⟩

theorem goSlice_empty (src : List Nat) (a b : Nat) (h : b ≤ a) : goSlice src a b = [] := by
  unfold goSlice
  rw [show b - a = 0 by omega]
  rfl

theorem goSlice_split (src : List Nat) (lo mid hi : Nat) (h1 : lo ≤ mid) (h2 : mid ≤ hi) :
    goSlice src lo hi = goSlice src lo mid ++ goSlice src mid hi := by
  unfold goSlice
  rw [show hi - lo = (mid - lo) + (hi - mid) by omega, List.take_add, List.drop_drop,
    show lo + (mid - lo) = mid by omega]

theorem occursIn_goSlice (src : List Nat) (lo a b hi : Nat)
    (h1 : lo ≤ a) (h2 : a ≤ b) (h3 : b ≤ hi) :
    OccursIn (goSlice src a b) (goSlice src lo hi) := by
  rw [goSlice_split src lo a hi h1 (by omega), goSlice_split src a b hi h2 h3]
  exact ⟨goSlice src lo a, goSlice src b hi, by simp⟩

theorem buildSQLAux_gap (src : List Nat) :
    ∀ es last a b, ChainBelow last src.length es → last ≤ a → a ≤ b → b ≤ src.length →
      (∀ e ∈ es, b ≤ e.start ∨ e.stop ≤ a) →
      OccursIn (goSlice src a b) (buildSQLAux src last es) := by
  intro es
  induction es with
  | nil =>
    intro last a b hch ha hab hb _
    rw [buildSQLAux]
    by_cases hl : last < src.length
    · rw [if_pos hl]
      exact occursIn_goSlice src last a b src.length ha hab hb
    · rw [if_neg hl]
      have hempty : goSlice src a b = [] := goSlice_empty src a b (by omega)
      rw [hempty]
      exact occursIn_nil []
  | cons e rest ih =>
    intro last a b hch ha hab hb hdisj
    rw [buildSQLAux]
    obtain ⟨hc1, hc2, hc3⟩ := hch
    rcases hdisj e (List.mem_cons_self e rest) with hd | hd
    · -- the segment lies in the gap before this edit
      have hsub : OccursIn (goSlice src a b) (goSlice src last e.start) :=
        occursIn_goSlice src last a b e.start ha hab hd
      by_cases hg : e.start > last
      · rw [if_pos hg]
        rw [List.append_assoc]
        exact occursIn_append_left _ hsub
      · have hempty : goSlice src a b = [] := goSlice_empty src a b (by omega)
        rw [hempty]
        exact occursIn_nil _
    · -- the segment lies beyond this edit
      have hrec := ih e.stop a b hc3 (by omega) hab hb
        (fun e' he' => hdisj e' (List.mem_cons_of_mem e he'))
      exact occursIn_append_right _ hrec

theorem buildSQL_gap (st : ParseState) (a b : Nat)
    (hch : ChainBelow 0 st.i st.edits) (hle : st.i ≤ st.src.length)
    (hab : a ≤ b) (hb : b ≤ st.src.length)
    (hdisj : ∀ e ∈ st.edits, b ≤ e.start ∨ e.stop ≤ a) :
    OccursIn (goSlice st.src a b) (buildSQL st) := by
  rw [buildSQL_eq_aux]
  exact buildSQLAux_gap st.src st.edits 0 a b
    (chainBelow_mono st.edits 0 st.i st.src.length hch hle)
    (Nat.zero_le a) hab hb hdisj

theorem posOf_lt_length (l : List (List Nat)) (nm : List Nat) (k : Nat)
    (h : posOf l nm = some k) : k < l.length := by
  have := posOf_get l nm k h
  exact List.get?_eq_some.mp this |>.1

/-- Slot `k` of an accumulator holds a token of the scan with the matching
1-based index. -/
def GoodSlot (allToks : List QueryToken) (acc : List QueryToken) (k : Nat) : Prop :=
  ∃ t, t ∈ allToks ∧ acc.get? k = some t ∧ t.Index = k + 1

/-- Fold of source `orderedTokens`, abstracted over the order list and the
initial accumulator. -/
def fillFold (order : List (List Nat)) (toks : List QueryToken)
    (init : List QueryToken) : List QueryToken :=
  toks.foldl
    (fun ordered p =>
      if p.Index < 1 then ordered
      else if p.Index > order.length then ordered
      else if order.getD (p.Index - 1) [] ≠ p.Name then ordered
      else ordered.set (p.Index - 1) p)
    init

theorem orderedTokens_eq_fillFold (s : ParseState) :
    orderedTokens s = fillFold s.order s.tokens (List.replicate s.order.length zeroQueryToken) :=
  rfl

theorem fillFold_length (order : List (List Nat)) :
    ∀ toks init, (fillFold order toks init : List QueryToken).length = init.length := by
  intro toks
  induction toks with
  | nil => intro init; rfl
  | cons p rest ih =>
    intro init
    show (fillFold order rest _).length = _
    rw [ih]
    dsimp only
    split
    · rfl
    · split
      · rfl
      · split
        · rfl
        · simp

theorem fillFold_step_good (order : List (List Nat)) (allToks : List QueryToken)
    (init : List QueryToken) (p : QueryToken) (hp : p ∈ allToks)
    (hlen : init.length = order.length) (k : Nat)
    (hg : GoodSlot allToks init k) :
    GoodSlot allToks
      (if p.Index < 1 then init
       else if p.Index > order.length then init
       else if order.getD (p.Index - 1) [] ≠ p.Name then init
       else init.set (p.Index - 1) p) k := by
  split
  · exact hg
  · split
    · exact hg
    · split
      · exact hg
      · rename_i h1 h2 _
        by_cases hk : p.Index - 1 = k
        · subst hk
          refine ⟨p, hp, ?_, by omega⟩
          rw [List.get?_set_eq]
          obtain ⟨t, _, hget, _⟩ := hg
          rw [hget]
          rfl
        · obtain ⟨t, ht, hget, hidx⟩ := hg
          exact ⟨t, ht, by rw [List.get?_set_ne _ _ hk, hget], hidx⟩

theorem fillFold_good (order : List (List Nat)) (allToks : List QueryToken)
    (htokf : ∀ t ∈ allToks, 1 ≤ t.Index ∧ posOf order t.Name = some (t.Index - 1)) :
    ∀ toks init, (∀ t ∈ toks, t ∈ allToks) → init.length = order.length →
      (∀ k, GoodSlot allToks init k → GoodSlot allToks (fillFold order toks init) k) ∧
      (∀ t ∈ toks, GoodSlot allToks (fillFold order toks init) (t.Index - 1)) := by
  intro toks
  induction toks with
  | nil =>
    intro init _ _
    exact ⟨fun k hg => hg, fun t ht => absurd ht (by simp)⟩
  | cons p rest ih =>
    intro init hsub hlen
    have hpall : p ∈ allToks := hsub p (List.mem_cons_self p rest)
    obtain ⟨hp1, hp2⟩ := htokf p hpall
    have hplt : p.Index - 1 < order.length := posOf_lt_length order p.Name _ hp2
    have hname : order.getD (p.Index - 1) [] = p.Name := by
      have hg := posOf_get order p.Name _ hp2
      rw [List.getD_eq_getElem?_getD, ← List.get?_eq_getElem?, hg]
      rfl
    have hstep : (if p.Index < 1 then init
        else if p.Index > order.length then init
        else if order.getD (p.Index - 1) [] ≠ p.Name then init
        else init.set (p.Index - 1) p) = init.set (p.Index - 1) p := by
      rw [if_neg (by omega), if_neg (by omega), if_neg (not_not.mpr hname)]
    have hlen' : (init.set (p.Index - 1) p).length = order.length := by
      rw [List.length_set]
      exact hlen
    have hfold : fillFold order (p :: rest) init = fillFold order rest (init.set (p.Index - 1) p) := by
      show List.foldl _ _ (p :: rest) = _
      rw [List.foldl_cons, hstep]
      rfl
    obtain ⟨ihpres, ihest⟩ := ih (init.set (p.Index - 1) p)
      (fun t ht => hsub t (List.mem_cons_of_mem p ht)) hlen'
    constructor
    · intro k hg
      rw [hfold]
      apply ihpres
      have := fillFold_step_good order allToks init p hpall hlen k hg
      rw [hstep] at this
      exact this
    · intro t ht
      rcases List.mem_cons.mp ht with rfl | ht
      · rw [hfold]
        apply ihpres
        refine ⟨t, hpall, ?_, by omega⟩
        rw [List.get?_set_eq]
        have hlt : t.Index - 1 < init.length := by omega
        rw [List.get?_eq_get hlt]
        rfl
      · rw [hfold]
        exact ihest t ht

theorem orderedTokens_spec (fmt : Nat → List Nat) (st : ParseState)
    (hinv : ScanInv fmt st) :
    (orderedTokens st).length = st.order.length ∧
      ∀ k, k < st.order.length → ∃ t, t ∈ st.tokens ∧
        (orderedTokens st).get? k = some t ∧ t.Index = k + 1 ∧
        st.order.get? k = some t.Name := by
  have hlen : (orderedTokens st).length = st.order.length := by
    rw [orderedTokens_eq_fillFold, fillFold_length, List.length_replicate]
  refine ⟨hlen, fun k hk => ?_⟩
  obtain ⟨t0, ht0, hidx0⟩ := hinv.hcover k hk
  have hgood := (fillFold_good st.order st.tokens hinv.htok st.tokens
    (List.replicate st.order.length zeroQueryToken)
    (fun t ht => ht) (by rw [List.length_replicate])).2 t0 ht0
  rw [← orderedTokens_eq_fillFold, hidx0] at hgood
  obtain ⟨t, htmem, hget, htidx⟩ := hgood
  simp only [Nat.add_sub_cancel] at hget htidx
  have hname := (hinv.htok t htmem).2
  rw [htidx] at hname
  simp only [Nat.add_sub_cancel] at hname
  exact ⟨t, htmem, hget, htidx, posOf_get _ _ _ hname⟩

theorem sortByIndex_eq_self :
    ∀ l : List QueryToken, List.Pairwise (fun a b => a.Index ≤ b.Index) l →
      sortByIndex l = l := by
  intro l
  induction l with
  | nil => intro _; rfl
  | cons t rest ih =>
    intro h
    show insertByIndex t (sortByIndex rest) = t :: rest
    rw [ih (List.Pairwise.of_cons h)]
    cases rest with
    | nil => rfl
    | cons u r2 =>
      show (if t.Index ≤ u.Index then t :: u :: r2 else u :: insertByIndex t r2) = _
      rw [if_pos (List.rel_of_pairwise_cons h (List.mem_cons_self u r2))]

theorem tokensParameters_closed (fmt : Nat → List Nat) (st : ParseState)
    (hinv : ScanInv fmt st) :
    tokensParameters (orderedTokens st) =
      (List.range st.order.length).map
        (fun k => { Name := st.order.getD k [], Index := k + 1 }) := by
  obtain ⟨hlen, hslot⟩ := orderedTokens_spec fmt st hinv
  have hidxat : ∀ k (hk : k < (orderedTokens st).length),
      ((orderedTokens st).get ⟨k, hk⟩).Index = k + 1 ∧
        st.order.get? k = some ((orderedTokens st).get ⟨k, hk⟩).Name := by
    intro k hk
    obtain ⟨t, _, hget, hidx, hname⟩ := hslot k (by omega)
    have : (orderedTokens st).get ⟨k, hk⟩ = t := by
      have := List.get?_eq_get hk
      rw [this] at hget
      exact Option.some.inj hget
    rw [this]
    exact ⟨hidx, hname⟩
  have hpair : List.Pairwise (fun a b : QueryToken => a.Index ≤ b.Index) (orderedTokens st) := by
    rw [List.pairwise_iff_get]
    intro i j hij
    rw [(hidxat i i.isLt).1, (hidxat j j.isLt).1]
    omega
  unfold tokensParameters
  rw [sortByIndex_eq_self _ hpair]
  apply List.ext_get?
  intro k
  by_cases hk : k < st.order.length
  · obtain ⟨t, _, hget, hidx, hname⟩ := hslot k hk
    rw [List.get?_map, List.get?_map, List.get?_range hk, hget]
    simp only [Option.map_some']
    rw [List.getD_eq_getElem?_getD, ← List.get?_eq_getElem?, hname]
    simp only [Option.getD_some]
    rw [hidx]
  · rw [List.get?_map, List.get?_map]
    rw [List.get?_eq_none.mpr (by omega : (orderedTokens st).length ≤ k),
      List.get?_eq_none.mpr (by simp; omega)]
    rfl

theorem scanLoop_reaches_end (f : Nat → List Nat) (s stf : ParseState)
    (h : scanLoop f s = Except.ok stf) : stf.n ≤ stf.i := by
  rw [scanLoop] at h
  split at h
  · rename_i hlt
    split at h
    · exact absurd h (by simp)
    · rename_i s1 heq
      have hs := scanStep_ok_spec f s s1 hlt heq
      exact scanLoop_reaches_end f s1 stf h
  · simp only [Except.ok.injEq] at h
    subst h
    omega
termination_by s.n - s.i
decreasing_by omega

theorem mem_insertByIndex (t u : QueryToken) :
    ∀ l, (u ∈ insertByIndex t l ↔ u = t ∨ u ∈ l) := by
  intro l
  induction l with
  | nil => simp [insertByIndex]
  | cons v rest ih =>
    rw [insertByIndex]
    split
    · simp
    · rw [List.mem_cons, ih, List.mem_cons]
      tauto

theorem mem_sortByIndex (u : QueryToken) :
    ∀ l, (u ∈ sortByIndex l ↔ u ∈ l) := by
  intro l
  induction l with
  | nil => simp [sortByIndex]
  | cons t rest ih =>
    show u ∈ insertByIndex t (sortByIndex rest) ↔ _
    rw [mem_insertByIndex, ih, List.mem_cons]

theorem goSlice_full (src : List Nat) : goSlice src 0 src.length = src := by
  simp [goSlice]

/-- Dispatch triggers that route to a skip branch or the cast skip: the two
line-comment forms, a block comment, the four quote forms, dollar quoting,
Oracle quoting, and the `::` cast. -/
def SkipTrigger (s : ParseState) : Prop :=
  (byteAt s.src s.i = 45 ∧ s.peek 1 = 45) ∨ byteAt s.src s.i = 35 ∨
  (byteAt s.src s.i = 47 ∧ s.peek 1 = 42) ∨ byteAt s.src s.i = 39 ∨
  byteAt s.src s.i = 34 ∨ byteAt s.src s.i = 96 ∨ byteAt s.src s.i = 91 ∨
  byteAt s.src s.i = 36 ∨ byteAt s.src s.i = 113 ∨ byteAt s.src s.i = 81 ∨
  (byteAt s.src s.i = 58 ∧ s.peek 1 = 58)

instance (s : ParseState) : Decidable (SkipTrigger s) := by
  unfold SkipTrigger
  infer_instance

/-- C9: for every input, calling the parse operation with a nil format
function fails immediately with the FormatFunctionRequired configuration
error before any scanning occurs, and produces no output (the error
constructor carries no result, and the definition returns before the scan
loop is entered). -/
theorem c9_nil_format_function (src : List Nat) :
    ParseSQL src none = Except.error ParseError.formatParamFuncRequired := rfl

/-- C10: because the recognizer scans the maximal run of name characters
before validating, a `:` followed by a valid identifier start whose maximal
run ends in selector punctuation that does not complete the grammar makes
the entire parse fail with InvalidPlaceholderName rather than accepting a
shorter valid prefix: `SELECT :id.` (trailing dot) fails with raw name
`id.` at offset 7, and `:a]` (stray closing bracket) fails with raw name
`a]` at offset 0. -/
theorem c10_maximal_run_rejection :
    (∀ f : Nat → List Nat,
      ParseSQL [83, 69, 76, 69, 67, 84, 32, 58, 105, 100, 46] (some f) =
        Except.error (ParseError.invalidPlaceholderName [105, 100, 46] 7)) ∧
    (∀ f : Nat → List Nat,
      ParseSQL [58, 97, 93] (some f) =
        Except.error (ParseError.invalidPlaceholderName [97, 93] 0)) := by
  constructor
  · intro f
    rw [ParseSQL_eq_F]
    rfl
  · intro f
    rw [ParseSQL_eq_F]
    rfl

/-- C1: for every scan state whose cursor is inside the input, the dispatch
step (whichever branch it takes: a skipper, the cast skip, the placeholder
recognizer, or the default advance) leaves the cursor strictly greater than
on entry with the source and its length unchanged, and every completed scan
loop ends with the cursor at or past end-of-input — so the scan terminates
on all inputs, malformed or not. -/
theorem c1_dispatch_progress (f : Nat → List Nat) (s s' stf : ParseState)
    (hlt : s.i < s.n) :
    (scanStep f s = Except.ok s' → s.i < s'.i ∧ s'.n = s.n ∧ s'.src = s.src) ∧
    (scanLoop f s = Except.ok stf → stf.n ≤ stf.i) := by
  constructor
  · intro h
    obtain ⟨e1, e2, e3, _⟩ := scanStep_ok_spec f s s' hlt h
    exact ⟨e3, e2, e1⟩
  · intro h
    exact scanLoop_reaches_end f s stf h

/-- Witness for C1 at the one-byte input `x`: the dispatch takes the default
branch and advances from 0 to 1, and the finished loop ends at
end-of-input. -/
theorem c1_dispatch_progress_witness :
    (newParseState [120]).i < (newParseState [120]).n ∧
    scanStep (fun _ => [63]) (newParseState [120]) =
      Except.ok { newParseState [120] with i := 1 } ∧
    scanLoop (fun _ => [63]) (newParseState [120]) =
      Except.ok { newParseState [120] with i := 1 } ∧
    ((newParseState [120]).i < ({ newParseState [120] with i := 1 } : ParseState).i ∧
      ({ newParseState [120] with i := 1 } : ParseState).n = (newParseState [120]).n ∧
      ({ newParseState [120] with i := 1 } : ParseState).src = (newParseState [120]).src) ∧
    ({ newParseState [120] with i := 1 } : ParseState).n ≤
      ({ newParseState [120] with i := 1 } : ParseState).i := by
  have hlt : (newParseState [120]).i < (newParseState [120]).n := by decide
  have hstep : scanStep (fun _ => [63]) (newParseState [120]) =
      Except.ok { newParseState [120] with i := 1 } := by
    rw [← scanStepF_eq]
    rfl
  have hloop : scanLoop (fun _ => [63]) (newParseState [120]) =
      Except.ok { newParseState [120] with i := 1 } := by
    rw [← scanLoopF_eq (fun _ => [63]) 1 (newParseState [120]) (by decide)]
    rfl
  exact ⟨hlt, hstep, hloop,
    (c1_dispatch_progress (fun _ => [63]) (newParseState [120])
      { newParseState [120] with i := 1 } { newParseState [120] with i := 1 } hlt).1 hstep,
    (c1_dispatch_progress (fun _ => [63]) (newParseState [120])
      { newParseState [120] with i := 1 } { newParseState [120] with i := 1 } hlt).2 hloop⟩

/-- C7 counterexample: on the literal `'a''b'` the single-quoted skipper
stops at offset 3 — the byte after the first closing quote, inside the
doubled pair — not at offset 6 past the span the claim describes: the guard
`s.i <= s.n` in the source is always true inside the loop, so the
escaped-quote branch below it is dead and a doubled `''` does close the
span. -/
theorem c7_counterexample :
    (consumeSingleQuoted (newParseState [39, 97, 39, 39, 98, 39])).i = 3 ∧
    (consumeSingleQuoted (newParseState [39, 97, 39, 39, 98, 39])).i ≠ 6 := by
  rw [← consumeSingleQuotedF_eq]
  exact ⟨rfl, by decide⟩

/-- C7 amended: the single-quoted skipper consumes only to the first
closing `'` (offset 3 on `'a''b'`); a doubled `''` is nonetheless harmless
observationally, because the second quote immediately reopens a quoted
span, so in `SELECT 'a'':x''b', :y` the `:x` between doubled quotes is
never recognized as a placeholder, the literal's bytes reach the rewritten
SQL unchanged, and only `:y` is rewritten. -/
theorem c7_amended :
    (consumeSingleQuoted (newParseState [39, 97, 39, 39, 98, 39])).i = 3 ∧
    ParseSQL [83, 69, 76, 69, 67, 84, 32, 39, 97, 39, 39, 58, 120, 39, 39, 98, 39, 44, 32, 58, 121]
        (some (fun _ => [63])) =
      Except.ok
        { SQL := [83, 69, 76, 69, 67, 84, 32, 39, 97, 39, 39, 58, 120, 39, 39, 98, 39, 44, 32, 63],
          parameters := [{ Name := [121], Index := 1 }],
          occurrences := [{ Name := [121], Index := 1, Start := 19, End := 21, Raw := [58, 121] }] } := by
  constructor
  · rw [← consumeSingleQuotedF_eq]
    rfl
  · rw [ParseSQL_eq_F]
    rfl

/-- C8 counterexample: on input `SELECT :año` the recognizer does not scan
the full Unicode name: the byte scan stops at the first non-ASCII byte, the
emitted token is named `a` (byte 97), not the complete selector `año`
(bytes 97, 195, 177, 111), and the rewritten SQL splices the replacement
before the untouched bytes `ño`. -/
theorem c8_counterexample :
    ParseSQL [83, 69, 76, 69, 67, 84, 32, 58, 97, 195, 177, 111] (some (fun _ => [63])) =
      Except.ok
        { SQL := [83, 69, 76, 69, 67, 84, 32, 63, 195, 177, 111],
          parameters := [{ Name := [97], Index := 1 }],
          occurrences := [{ Name := [97], Index := 1, Start := 7, End := 9, Raw := [58, 97] }] } ∧
    ([97] : List Nat) ≠ [97, 195, 177, 111] := by
  constructor
  · rw [ParseSQL_eq_F]
    rfl
  · decide

/-- C8 amended: the raw-name scan of the recognizer admits only the ASCII
bytes of `isValidIdentifierChar`, so a placeholder name is truncated at the
first non-ASCII byte: `SELECT :año` succeeds with the single parameter `a`
and leaves the bytes `ño` in place.  The name validator alone does admit
Unicode letters (`isValidName` accepts the full byte sequence of `año`),
but the scanner never hands it a non-ASCII name. -/
theorem c8_amended :
    ParseSQL [83, 69, 76, 69, 67, 84, 32, 58, 97, 195, 177, 111] (some (fun _ => [63])) =
      Except.ok
        { SQL := [83, 69, 76, 69, 67, 84, 32, 63, 195, 177, 111],
          parameters := [{ Name := [97], Index := 1 }],
          occurrences := [{ Name := [97], Index := 1, Start := 7, End := 9, Raw := [58, 97] }] } ∧
    isValidName [97, 195, 177, 111] = true ∧
    isValidIdentifierChar 195 = false := by
  refine ⟨?_, ?_, by decide⟩
  · rw [ParseSQL_eq_F]
    rfl
  · rw [← isValidNameF_eq]
    rfl

/-- C3: whenever the scan of an input produces no edit spans, the parse
operation succeeds, the rewritten SQL is the source text byte-for-byte, and
both the parameters and the occurrences lists are empty. -/
theorem c3_identity_no_placeholder (src : List Nat) (f : Nat → List Nat) (stf : ParseState)
    (hrun : scanLoop f (newParseState src) = Except.ok stf)
    (hnoedit : stf.edits = []) :
    ParseSQL src (some f) = Except.ok (finishParse stf) ∧
    (finishParse stf).SQL = src ∧
    (finishParse stf).parameters = [] ∧
    (finishParse stf).occurrences = [] := by
  obtain ⟨hI, hsrc0, _, _, _, _⟩ := scanLoop_inv f (newParseState src) stf hrun
    (scanInv_init f src)
  have hsrc : stf.src = src := by rw [hsrc0]; rfl
  have htok : stf.tokens = [] := by
    have hm := hI.hmap
    rw [hnoedit] at hm
    exact List.map_eq_nil.mp hm.symm
  have hfin : finishParse stf =
      { SQL := stf.src, parameters := tokensParameters stf.tokens,
        occurrences := sortByIndex stf.tokens } := by
    unfold finishParse NewParsedSQLWithOccurrences
    rw [if_pos hnoedit]
  refine ⟨?_, ?_, ?_, ?_⟩
  · unfold ParseSQL
    dsimp only
    rw [hrun]
  · rw [hfin]
    exact hsrc
  · rw [hfin, htok]
    rfl
  · rw [hfin, htok]
    rfl

/-- Witness for C3 at the placeholder-free input `SELECT 1`. -/
theorem c3_identity_no_placeholder_witness :
    scanLoop (fun _ => [63]) (newParseState [83, 69, 76, 69, 67, 84, 32, 49]) =
      Except.ok { newParseState [83, 69, 76, 69, 67, 84, 32, 49] with i := 8 } ∧
    ({ newParseState [83, 69, 76, 69, 67, 84, 32, 49] with i := 8 } : ParseState).edits = [] ∧
    (ParseSQL [83, 69, 76, 69, 67, 84, 32, 49] (some (fun _ => [63])) =
      Except.ok (finishParse { newParseState [83, 69, 76, 69, 67, 84, 32, 49] with i := 8 }) ∧
    (finishParse { newParseState [83, 69, 76, 69, 67, 84, 32, 49] with i := 8 }).SQL =
      [83, 69, 76, 69, 67, 84, 32, 49] ∧
    (finishParse { newParseState [83, 69, 76, 69, 67, 84, 32, 49] with i := 8 }).parameters = [] ∧
    (finishParse { newParseState [83, 69, 76, 69, 67, 84, 32, 49] with i := 8 }).occurrences = []) := by
  have hrun : scanLoop (fun _ => [63]) (newParseState [83, 69, 76, 69, 67, 84, 32, 49]) =
      Except.ok { newParseState [83, 69, 76, 69, 67, 84, 32, 49] with i := 8 } := by
    rw [← scanLoopF_eq (fun _ => [63]) 8 (newParseState [83, 69, 76, 69, 67, 84, 32, 49])
      (by decide)]
    rfl
  exact ⟨hrun, rfl,
    c3_identity_no_placeholder [83, 69, 76, 69, 67, 84, 32, 49] (fun _ => [63])
      { newParseState [83, 69, 76, 69, 67, 84, 32, 49] with i := 8 } hrun rfl⟩

/-- C4: when the maximal raw-name run after `:` violates the selector
grammar, the whole scan fails with InvalidPlaceholderName carrying that raw
name and the byte offset of the `:`; concretely, `:items.0.id` (digit
segment after a dot) fails with raw name `items.0.id` at its colon offset,
while `:items[0].id` succeeds with the single parameter `items[0].id`.  No
partial result exists on the error path by the return type. -/
theorem c4_grammar_rejection (f : Nat → List Nat) (s : ParseState)
    (hb : byteAt s.src s.i = 58) (hp1 : s.peek 1 ≠ 58)
    (hv : s.i + 1 < s.n ∧ isValidIdentifierStart (byteAt s.src (s.i + 1)) = true)
    (hbad : isValidName (goSlice s.src (s.i + 1) (scanIdentEnd s.src s.n (s.i + 1))) = false) :
    (scanLoop f s = Except.error (ParseError.invalidPlaceholderName
      (goSlice s.src (s.i + 1) (scanIdentEnd s.src s.n (s.i + 1))) s.i)) ∧
    (∀ g : Nat → List Nat,
      ParseSQL [83, 69, 76, 69, 67, 84, 32, 42, 32, 70, 82, 79, 77, 32, 112, 114, 111, 100,
          117, 99, 116, 115, 32, 87, 72, 69, 82, 69, 32, 105, 100, 32, 61, 32, 58, 105, 116,
          101, 109, 115, 46, 48, 46, 105, 100] (some g) =
        Except.error (ParseError.invalidPlaceholderName
          [105, 116, 101, 109, 115, 46, 48, 46, 105, 100] 34)) ∧
    ParseSQL [58, 105, 116, 101, 109, 115, 91, 48, 93, 46, 105, 100] (some (fun _ => [63])) =
      Except.ok
        { SQL := [63],
          parameters := [{ Name := [105, 116, 101, 109, 115, 91, 48, 93, 46, 105, 100],
                           Index := 1 }],
          occurrences := [{ Name := [105, 116, 101, 109, 115, 91, 48, 93, 46, 105, 100],
                            Index := 1, Start := 0, End := 12,
                            Raw := [58, 105, 116, 101, 109, 115, 91, 48, 93, 46, 105, 100] }] } := by
  refine ⟨?_, ?_, ?_⟩
  · have hstep : scanStep f s = Except.error (ParseError.invalidPlaceholderName
        (goSlice s.src (s.i + 1) (scanIdentEnd s.src s.n (s.i + 1))) s.i) := by
      rw [scanStep,
        if_neg (show ¬ byteAt s.src s.i = 45 by rw [hb]; decide),
        if_neg (show ¬ byteAt s.src s.i = 35 by rw [hb]; decide),
        if_neg (show ¬ byteAt s.src s.i = 47 by rw [hb]; decide),
        if_neg (show ¬ byteAt s.src s.i = 39 by rw [hb]; decide),
        if_neg (show ¬ byteAt s.src s.i = 34 by rw [hb]; decide),
        if_neg (show ¬ byteAt s.src s.i = 96 by rw [hb]; decide),
        if_neg (show ¬ byteAt s.src s.i = 91 by rw [hb]; decide),
        if_neg (show ¬ byteAt s.src s.i = 36 by rw [hb]; decide),
        if_neg (show ¬ (byteAt s.src s.i = 113 ∨ byteAt s.src s.i = 81) by rw [hb]; decide),
        if_pos hb, if_neg hp1, if_pos hv]
      unfold consumePlaceholder
      dsimp only
      rw [if_neg (show ¬ (s.i + 1 ≥ s.n ∨ ¬ isValidIdentifierStart (byteAt s.src (s.i + 1)) = true) by
        rintro (hc | hc)
        · omega
        · exact hc hv.2)]
      rw [if_pos (show ¬ isValidName (goSlice s.src (s.i + 1) (scanIdentEnd s.src s.n (s.i + 1))) = true by
        simp [hbad])]
    rw [scanLoop, dif_pos (show s.i < s.n by omega)]
    rw [hstep]
  · intro g
    rw [ParseSQL_eq_F]
    rfl
  · rw [ParseSQL_eq_F]
    rfl

/-- Scan state at the start of the input `:items.0.id`, used to witness C4. -/
def c4s : ParseState := newParseState [58, 105, 116, 101, 109, 115, 46, 48, 46, 105, 100]

/-- Witness for C4 at the input `:items.0.id`: the dispatch conditions of the
placeholder branch hold at offset 0, the maximal raw-name run `items.0.id`
fails the selector grammar, and the scan loop returns exactly the
InvalidPlaceholderName error. -/
theorem c4_grammar_rejection_witness :
    byteAt c4s.src c4s.i = 58 ∧
    c4s.peek 1 ≠ 58 ∧
    (c4s.i + 1 < c4s.n ∧ isValidIdentifierStart (byteAt c4s.src (c4s.i + 1)) = true) ∧
    isValidName (goSlice c4s.src (c4s.i + 1) (scanIdentEnd c4s.src c4s.n (c4s.i + 1))) = false ∧
    scanLoop (fun _ => [63]) c4s = Except.error (ParseError.invalidPlaceholderName
      (goSlice c4s.src (c4s.i + 1) (scanIdentEnd c4s.src c4s.n (c4s.i + 1))) c4s.i) := by
  have hb : byteAt c4s.src c4s.i = 58 := by decide
  have hp1 : c4s.peek 1 ≠ 58 := by decide
  have hv : c4s.i + 1 < c4s.n ∧ isValidIdentifierStart (byteAt c4s.src (c4s.i + 1)) = true := by
    decide
  have hbad : isValidName
      (goSlice c4s.src (c4s.i + 1) (scanIdentEnd c4s.src c4s.n (c4s.i + 1))) = false := by
    rw [← scanIdentEndF_eq c4s.src c4s.n c4s.n (c4s.i + 1) (Nat.sub_le _ _), ← isValidNameF_eq]
    rfl
  exact ⟨hb, hp1, hv, hbad, (c4_grammar_rejection (fun _ => [63]) c4s hb hp1 hv hbad).1⟩

/-- C5: whenever a scan recognizes the same placeholder name exactly twice,
the deduplicated parameters list has just that name with index 1, the
occurrences list is the two-token scan list, both occurrences carry index
1, and both edit spans carry the identical replacement text produced by the
format function at index 1. -/
theorem c5_duplicate_placeholder (src : List Nat) (f : Nat → List Nat) (x : List Nat)
    (stf : ParseState)
    (hrun : scanLoop f (newParseState src) = Except.ok stf)
    (hnames : stf.tokens.map QueryToken.Name = [x, x]) :
    (finishParse stf).parameters = [{ Name := x, Index := 1 }] ∧
    (finishParse stf).occurrences = stf.tokens ∧
    stf.tokens.map QueryToken.Index = [1, 1] ∧
    stf.edits.map EditState.repl = [f 1, f 1] := by
  obtain ⟨hI, _, _, _, _, _⟩ := scanLoop_inv f (newParseState src) stf hrun (scanInv_init f src)
  obtain ⟨t1, t2, htoks, hn1, hn2⟩ :
      ∃ t1 t2, stf.tokens = [t1, t2] ∧ t1.Name = x ∧ t2.Name = x := by
    cases h1 : stf.tokens with
    | nil => rw [h1] at hnames; simp at hnames
    | cons a l1 =>
      cases h2 : l1 with
      | nil => rw [h1, h2] at hnames; simp at hnames
      | cons b l2 =>
        cases h3 : l2 with
        | nil =>
          rw [h1, h2, h3] at hnames
          simp only [List.map_cons, List.map_nil, List.cons.injEq, and_true] at hnames
          exact ⟨a, b, rfl, hnames.1, hnames.2⟩
        | cons d l3 => rw [h1, h2, h3] at hnames; simp at hnames
  have horder : stf.order = [x] := by
    rw [hI.horder, hnames]
    simp [dedupFirst]
  have hmem1 : t1 ∈ stf.tokens := by rw [htoks]; simp
  have hmem2 : t2 ∈ stf.tokens := by rw [htoks]; simp
  have hidx1 : t1.Index = 1 := by
    obtain ⟨hge, h2⟩ := hI.htok t1 hmem1
    rw [horder, hn1] at h2
    simp [posOf] at h2
    omega
  have hidx2 : t2.Index = 1 := by
    obtain ⟨hge, h2⟩ := hI.htok t2 hmem2
    rw [horder, hn2] at h2
    simp [posOf] at h2
    omega
  have hne : stf.edits ≠ [] := by rw [hI.hmap, htoks]; simp
  have hfin : finishParse stf =
      { SQL := buildSQL stf, parameters := tokensParameters (orderedTokens stf),
        occurrences := stf.tokens } := by
    unfold finishParse NewParsedSQLWithOccurrences
    rw [if_neg hne]
  refine ⟨?_, by rw [hfin], ?_, ?_⟩
  · rw [hfin]
    show tokensParameters (orderedTokens stf) = _
    rw [tokensParameters_closed f stf hI, horder]
    simp [List.range_succ]
  · rw [htoks]
    simp [hidx1, hidx2]
  · rw [hI.hmap, htoks]
    simp [hidx1, hidx2]

/-- Constant format function used by the C5 and C6 witnesses (always `?`). -/
def cwf : Nat → List Nat := fun _ => [63]

/-- Final scan state for the input `:x :x`, used to witness C5. -/
def c5stf : ParseState :=
  { src := [58, 120, 32, 58, 120], n := 5, i := 5,
    edits := [⟨0, 2, [63]⟩, ⟨3, 5, [63]⟩],
    order := [[120]], indexOf := [([120], 1)],
    tokens := [⟨[120], 1, 0, 2, [58, 120]⟩, ⟨[120], 1, 3, 5, [58, 120]⟩] }

/-- Witness for C5 on the input `:x :x`: the scan produces exactly two tokens
named `x`, the parameters list deduplicates to the single entry (x, 1), both
occurrences carry index 1, and both edits carry the same replacement. -/
theorem c5_duplicate_placeholder_witness :
    scanLoop cwf (newParseState [58, 120, 32, 58, 120]) = Except.ok c5stf ∧
    c5stf.tokens.map QueryToken.Name = [[120], [120]] ∧
    (finishParse c5stf).parameters = [{ Name := [120], Index := 1 }] ∧
    (finishParse c5stf).occurrences = c5stf.tokens ∧
    c5stf.tokens.map QueryToken.Index = [1, 1] ∧
    c5stf.edits.map EditState.repl = [cwf 1, cwf 1] := by
  have hrun : scanLoop cwf (newParseState [58, 120, 32, 58, 120]) = Except.ok c5stf := by
    rw [← scanLoopF_eq cwf 5 (newParseState [58, 120, 32, 58, 120]) (by decide)]
    rfl
  have hnames : c5stf.tokens.map QueryToken.Name = [[120], [120]] := rfl
  obtain ⟨h1, h2, h3, h4⟩ :=
    c5_duplicate_placeholder [58, 120, 32, 58, 120] cwf [120] c5stf hrun hnames
  exact ⟨hrun, hnames, h1, h2, h3, h4⟩

/-- C6: whenever a scan recognizes placeholder names in the pattern
`a, b, a, c` (three distinct names, the first repeated), the parameters
list keeps first-appearance order with indices 1, 2, 3, the occurrences
list is the four-token scan list, and the occurrence indices follow the
registry: 1, 2, 1, 3. -/
theorem c6_first_appearance_order (src : List Nat) (f : Nat → List Nat)
    (a b c : List Nat) (stf : ParseState)
    (hrun : scanLoop f (newParseState src) = Except.ok stf)
    (hnames : stf.tokens.map QueryToken.Name = [a, b, a, c])
    (hab : a ≠ b) (hac : a ≠ c) (hbc : b ≠ c) :
    (finishParse stf).parameters =
      [{ Name := a, Index := 1 }, { Name := b, Index := 2 }, { Name := c, Index := 3 }] ∧
    (finishParse stf).occurrences = stf.tokens ∧
    stf.tokens.map QueryToken.Index = [1, 2, 1, 3] := by
  obtain ⟨hI, _, _, _, _, _⟩ := scanLoop_inv f (newParseState src) stf hrun (scanInv_init f src)
  obtain ⟨t1, t2, t3, t4, htoks, hn1, hn2, hn3, hn4⟩ :
      ∃ t1 t2 t3 t4, stf.tokens = [t1, t2, t3, t4] ∧
        t1.Name = a ∧ t2.Name = b ∧ t3.Name = a ∧ t4.Name = c := by
    cases h1 : stf.tokens with
    | nil => rw [h1] at hnames; simp at hnames
    | cons u1 l1 =>
      rw [h1] at hnames
      cases l1 with
      | nil => simp at hnames
      | cons u2 l2 =>
        cases l2 with
        | nil => simp at hnames
        | cons u3 l3 =>
          cases l3 with
          | nil => simp at hnames
          | cons u4 l4 =>
            cases l4 with
            | nil =>
              simp only [List.map_cons, List.map_nil, List.cons.injEq, and_true] at hnames
              exact ⟨u1, u2, u3, u4, rfl, hnames.1, hnames.2.1, hnames.2.2.1, hnames.2.2.2⟩
            | cons u5 l5 => simp at hnames
  have hba : ¬ b = a := fun h => hab h.symm
  have hca : ¬ c = a := fun h => hac h.symm
  have hcb : ¬ c = b := fun h => hbc h.symm
  have horder : stf.order = [a, b, c] := by
    rw [hI.horder, hnames]
    simp [dedupFirst, hba, hca, hcb]
  have hmem1 : t1 ∈ stf.tokens := by rw [htoks]; simp
  have hmem2 : t2 ∈ stf.tokens := by rw [htoks]; simp
  have hmem3 : t3 ∈ stf.tokens := by rw [htoks]; simp
  have hmem4 : t4 ∈ stf.tokens := by rw [htoks]; simp
  have hidx1 : t1.Index = 1 := by
    obtain ⟨hge, h2⟩ := hI.htok t1 hmem1
    rw [horder, hn1] at h2
    simp [posOf] at h2
    omega
  have hidx2 : t2.Index = 2 := by
    obtain ⟨hge, h2⟩ := hI.htok t2 hmem2
    rw [horder, hn2] at h2
    simp [posOf, hab] at h2
    omega
  have hidx3 : t3.Index = 1 := by
    obtain ⟨hge, h2⟩ := hI.htok t3 hmem3
    rw [horder, hn3] at h2
    simp [posOf] at h2
    omega
  have hidx4 : t4.Index = 3 := by
    obtain ⟨hge, h2⟩ := hI.htok t4 hmem4
    rw [horder, hn4] at h2
    simp [posOf, hac, hbc] at h2
    omega
  have hne : stf.edits ≠ [] := by rw [hI.hmap, htoks]; simp
  have hfin : finishParse stf =
      { SQL := buildSQL stf, parameters := tokensParameters (orderedTokens stf),
        occurrences := stf.tokens } := by
    unfold finishParse NewParsedSQLWithOccurrences
    rw [if_neg hne]
  refine ⟨?_, by rw [hfin], ?_⟩
  · rw [hfin]
    show tokensParameters (orderedTokens stf) = _
    rw [tokensParameters_closed f stf hI, horder]
    simp [List.range_succ]
  · rw [htoks]
    simp [hidx1, hidx2, hidx3, hidx4]

/-- Final scan state for the input `:a :b :a :c`, used to witness C6. -/
def c6stf : ParseState :=
  { src := [58, 97, 32, 58, 98, 32, 58, 97, 32, 58, 99], n := 11, i := 11,
    edits := [⟨0, 2, [63]⟩, ⟨3, 5, [63]⟩, ⟨6, 8, [63]⟩, ⟨9, 11, [63]⟩],
    order := [[97], [98], [99]],
    indexOf := [([99], 3), ([98], 2), ([97], 1)],
    tokens := [⟨[97], 1, 0, 2, [58, 97]⟩, ⟨[98], 2, 3, 5, [58, 98]⟩,
               ⟨[97], 1, 6, 8, [58, 97]⟩, ⟨[99], 3, 9, 11, [58, 99]⟩] }

/-- Witness for C6 on the input `:a :b :a :c`: the scan recognizes the name
pattern a, b, a, c, the parameters come out in first-appearance order with
indices 1, 2, 3, and the occurrence indices are 1, 2, 1, 3. -/
theorem c6_first_appearance_order_witness :
    scanLoop cwf (newParseState [58, 97, 32, 58, 98, 32, 58, 97, 32, 58, 99]) =
      Except.ok c6stf ∧
    c6stf.tokens.map QueryToken.Name = [[97], [98], [97], [99]] ∧
    ([97] : List Nat) ≠ [98] ∧ ([97] : List Nat) ≠ [99] ∧ ([98] : List Nat) ≠ [99] ∧
    (finishParse c6stf).parameters =
      [{ Name := [97], Index := 1 }, { Name := [98], Index := 2 },
       { Name := [99], Index := 3 }] ∧
    (finishParse c6stf).occurrences = c6stf.tokens ∧
    c6stf.tokens.map QueryToken.Index = [1, 2, 1, 3] := by
  have hrun : scanLoop cwf (newParseState [58, 97, 32, 58, 98, 32, 58, 97, 32, 58, 99]) =
      Except.ok c6stf := by
    rw [← scanLoopF_eq cwf 11
      (newParseState [58, 97, 32, 58, 98, 32, 58, 97, 32, 58, 99]) (by decide)]
    rfl
  have hnames : c6stf.tokens.map QueryToken.Name = [[97], [98], [97], [99]] := rfl
  obtain ⟨h1, h2, h3⟩ :=
    c6_first_appearance_order [58, 97, 32, 58, 98, 32, 58, 97, 32, 58, 99] cwf
      [97] [98] [99] c6stf hrun hnames (by decide) (by decide) (by decide)
  exact ⟨hrun, hnames, by decide, by decide, by decide, h1, h2, h3⟩

/-- C2: skipped constructs are opaque.  If the dispatch at the current byte
hits a skip trigger (comment, quote form, dollar/Oracle quoting, or `::`
cast) and the step succeeds, then the step only advances the cursor: every
placeholder occurrence of the final parse lies entirely before or entirely
after the skipped span, and the skipped span's bytes appear verbatim in the
rewritten SQL. -/
theorem c2_skipper_opacity (f : Nat → List Nat) (s s' stf : ParseState)
    (hinv : ScanInv f s) (hlt : s.i < s.n) (htrig : SkipTrigger s)
    (hstep : scanStep f s = Except.ok s')
    (hrun : scanLoop f s' = Except.ok stf) :
    (∀ t ∈ (finishParse stf).occurrences, t.End ≤ s.i ∨ s'.i ≤ t.Start) ∧
    OccursIn (goSlice s.src s.i s'.i) ((finishParse stf).SQL) := by
  have hoa : OnlyAdvances s s' := by
    rcases scanStep_ok_cases f s s' hstep with hoa | ⟨hb, hp, _⟩
    · exact hoa
    · exfalso
      rcases htrig with ⟨h1, _⟩ | h1 | ⟨h1, _⟩ | h1 | h1 | h1 | h1 | h1 | h1 | h1 | ⟨_, h2⟩
      all_goals first
        | (rw [hb] at h1; exact absurd h1 (by decide))
        | exact hp h2
  obtain ⟨hsrc', hn', hadv, hbound⟩ := scanStep_ok_spec f s s' hlt hstep
  have hile : s'.i ≤ s.n := hbound hinv.hn
  have hinv' : ScanInv f s' := scanInv_of_onlyAdvances f hinv hoa (by omega) (by omega)
  obtain ⟨hIf, hsrcf, hnf, hilef, hendf, nts, htoksf, hstartf⟩ :=
    scanLoop_inv f s' stf hrun hinv'
  have htokclaim : ∀ t ∈ stf.tokens, t.End ≤ s.i ∨ s'.i ≤ t.Start := by
    intro t ht
    rw [htoksf] at ht
    rcases List.mem_append.mp ht with hold | hnew
    · left
      rw [hoa.2.2.2.2.2] at hold
      have he : ({ start := t.Start, stop := t.End, repl := f t.Index } : EditState)
          ∈ s.edits := by
        rw [hinv.hmap]
        exact List.mem_map_of_mem _ hold
      exact (chainBelow_elem s.edits 0 s.i _ hinv.hchain he).2.2
    · right
      exact hstartf t hnew
  have hsif : s'.i ≤ stf.src.length := by
    rw [hsrcf, hsrc', ← hinv.hn]
    exact hile
  constructor
  · intro t ht
    apply htokclaim
    unfold finishParse NewParsedSQLWithOccurrences at ht
    by_cases hed : stf.edits = []
    · rw [if_pos hed] at ht
      exact (mem_sortByIndex t stf.tokens).mp ht
    · rw [if_neg hed] at ht
      exact ht
  · unfold finishParse NewParsedSQLWithOccurrences
    by_cases hed : stf.edits = []
    · rw [if_pos hed]
      show OccursIn (goSlice s.src s.i s'.i) stf.src
      rw [hsrcf, hsrc']
      have := occursIn_goSlice s.src 0 s.i s'.i s.src.length (Nat.zero_le _) (by omega)
        (by rw [← hinv.hn]; exact hile)
      rw [goSlice_full] at this
      exact this
    · rw [if_neg hed]
      show OccursIn (goSlice s.src s.i s'.i) (buildSQL stf)
      have hgap := buildSQL_gap stf s.i s'.i hIf.hchain
        (by rw [← hIf.hn]; exact hIf.hle) (by omega) hsif ?_
      · rw [hsrcf, hsrc'] at hgap
        exact hgap
      · intro e he
        rw [hIf.hmap] at he
        obtain ⟨t, ht, rfl⟩ := List.mem_map.mp he
        rcases htokclaim t ht with h | h
        · right; exact h
        · left; exact h

/-- Initial scan state for the input `':x':y`, used to witness C2. -/
def c2s0 : ParseState := newParseState [39, 58, 120, 39, 58, 121]

/-- State after the single-quote skipper consumed `':x'`, used to witness C2. -/
def c2s1 : ParseState := { c2s0 with i := 4 }

/-- Final scan state for the input `':x':y`, used to witness C2. -/
def c2stf : ParseState :=
  { src := [39, 58, 120, 39, 58, 121], n := 6, i := 6,
    edits := [⟨4, 6, [63]⟩], order := [[121]], indexOf := [([121], 1)],
    tokens := [⟨[121], 1, 4, 6, [58, 121]⟩] }

/-- Witness for C2 on the input `':x':y`: the opening quote at offset 0 is a
skip trigger, the step consumes the literal `':x'` without recognizing the
`:x` inside it, and in the final parse the only occurrence (`:y`) lies
beyond the skipped span while the literal's bytes appear verbatim in the
rewritten SQL. -/
theorem c2_skipper_opacity_witness :
    ScanInv cwf c2s0 ∧ c2s0.i < c2s0.n ∧ SkipTrigger c2s0 ∧
    scanStep cwf c2s0 = Except.ok c2s1 ∧
    scanLoop cwf c2s1 = Except.ok c2stf ∧
    (∀ t ∈ (finishParse c2stf).occurrences, t.End ≤ c2s0.i ∨ c2s1.i ≤ t.Start) ∧
    OccursIn (goSlice c2s0.src c2s0.i c2s1.i) ((finishParse c2stf).SQL) := by
  have hinv : ScanInv cwf c2s0 := scanInv_init cwf [39, 58, 120, 39, 58, 121]
  have hlt : c2s0.i < c2s0.n := by decide
  have htrig : SkipTrigger c2s0 := by decide
  have hstep : scanStep cwf c2s0 = Except.ok c2s1 := by
    rw [← scanStepF_eq cwf c2s0]
    rfl
  have hrun : scanLoop cwf c2s1 = Except.ok c2stf := by
    rw [← scanLoopF_eq cwf 6 c2s1 (by decide)]
    rfl
  obtain ⟨h1, h2⟩ := c2_skipper_opacity cwf c2s0 c2s1 c2stf hinv hlt htrig hstep hrun
  exact ⟨hinv, hlt, htrig, hstep, hrun, h1, h2⟩
